import Mathlib

/-!
# FoenixEdit: row store, highlighter, input decoder, find mode and cursor

A shallow embedding of `src/edit.c` (the kilo-derived editor core), of the
escape-sequence decoder of `src/input.c` and of the constants of
`src/include/input.h`.

Conventions of the embedding.

* A byte is a `Nat`; a C buffer is a `List Nat`.  Reading a buffer at an offset
  is `rd`, which yields `0` past the end of the list: every string buffer of the
  source ends in a NUL byte, and the embedding keeps that byte in the list
  (`chars` is `size` content bytes followed by the terminator, `render` is
  `rsize` rendered bytes followed by the terminator).
* A pointer `erow *row` into `E.row` is the position of that row in the list.
* The global `E` is passed and returned explicitly.
* `editorUpdateSyntax` calls itself on the following row; the embedding takes a
  fuel argument for that recursion and returns `none` when it is used up.
  Every operation that re-highlights a row carries the same fuel argument.
* A write through `row->hl` outside `[0, rsize)`, or a read of `render` past its
  last byte, is recorded in the scanner state (`oob`).  The behaviour of the
  source is undefined from there on: `editorUpdateSyntax`, and every operation
  that calls it, is `none` for such a scan.
* `cli_getchar` reads its bytes from the front of a list; whether plain `char`
  is signed is a parameter of the decoder.
* `editorFind` takes the key events that `cli_getchar` returns as a list; the
  status message and the screen are not part of the state.
-/

namespace FoenixEdit

/-! ## Constants -/

def HL_NORMAL : Nat := 0
def HL_NONPRINT : Nat := 1
def HL_COMMENT : Nat := 2
def HL_MLCOMMENT : Nat := 3
def HL_KEYWORD1 : Nat := 4
def HL_KEYWORD2 : Nat := 5
def HL_STRING : Nat := 6
def HL_NUMBER : Nat := 7
def HL_MATCH : Nat := 8

def HL_HIGHLIGHT_STRINGS : Nat := 1
def HL_HIGHLIGHT_NUMBERS : Nat := 2

/-- The enumerator `TAB` of `enum ControlKeys` in `input.h`
(`KEY_NULL = 0`, `CTRL_A` .. `CTRL_G`, `BACKSPACE = 8`, `TAB = 9`). -/
def TAB : Nat := 9

/-- The bytes of a string literal of the source (without the terminator). -/
def bytes (s : String) : List Nat := s.toList.map Char.toNat

/-! ## Data model -/

/-- The C record `struct editorSyntax` (the `next` link of the registration list
is not part of the model). -/
structure editorSyntax where
  extension : List Nat
  interpreter : List Nat
  keywords : List (List Nat)
  singleline_comment_start : List Nat
  multiline_comment_start : List Nat
  multiline_comment_end : List Nat
  flags : Nat
deriving DecidableEq, Repr

/-- The C record `struct erow`: one line of the file. -/
structure erow where
  idx : Nat
  size : Nat
  rsize : Nat
  chars : List Nat
  render : List Nat
  hl : List Nat
  hl_oc : Nat
deriving DecidableEq, Repr

/-- The C record `struct editorConfig` (the global `E`), without the fields that
only the terminal and the file system read (`rawmode`, `filename`, `statusmsg`,
`statusmsg_time`).  The field `syn` is the pointer `E.syntax`. -/
structure editorConfig where
  cx : Int
  cy : Int
  rowoff : Int
  coloff : Int
  screenrows : Int
  screencols : Int
  numrows : Nat
  row : List erow
  dirty : Nat
  syn : Option editorSyntax
deriving DecidableEq, Repr

def C_HL_keywords : List (List Nat) :=
  [ "auto","break","case","continue","default","do","else","enum",
    "extern","for","goto","if","register","return","sizeof","static",
    "struct","switch","typedef","union","volatile","while","NULL",
    "int|","long|","double|","float|","char|","unsigned|","signed|",
    "void|","short|","auto|","const|","bool|" ].map bytes

def BAS_HL_keywords : List (List Nat) :=
  [ "CLS","PRINT","IF","GOTO","INPUT","LET","GOSUB","FOR","TO","STEP","CLEAR",
    "NEW","LIST","RUN","END","DIM",
    "ABS|","AND|","ATN|","COS|","EXP|","INT|","LOG|","NOT|","OR|","RND|",
    "SGN|","SIN|","SQR|","TAN|","LEN|","CHR$|","MID$|","LEFT$|","RIGHT$|",
    "ASC|" ].map bytes

def Lox_HL_keywords : List (List Nat) :=
  [ "and","class","else","false","for","fun","if","nil","or","print",
    "println","return","super","this","true","var","while",
    "ticks|","sleep|","cls|","joystick|","str|","num|","push|","pop|",
    "len|","clear|","peek8|","peek16|","peek32|","poke8|","poke16|",
    "poke32|","ceil|","floor|","round|","abs|","pow|","exp|","log|",
    "log10|","log2|","sqrt|","sin|","cos|","tan|","asin|","acos|","atan|",
    "sinh|","cosh|","tanh|","rand|" ].map bytes

def cSyntax : editorSyntax :=
  { extension := bytes ".c", interpreter := bytes "", keywords := C_HL_keywords,
    singleline_comment_start := bytes "//", multiline_comment_start := bytes "/*",
    multiline_comment_end := bytes "*/",
    flags := HL_HIGHLIGHT_STRINGS ||| HL_HIGHLIGHT_NUMBERS }

def hSyntax : editorSyntax :=
  { extension := bytes ".h", interpreter := bytes "", keywords := C_HL_keywords,
    singleline_comment_start := bytes "//", multiline_comment_start := bytes "/*",
    multiline_comment_end := bytes "*/",
    flags := HL_HIGHLIGHT_STRINGS ||| HL_HIGHLIGHT_NUMBERS }

def basSyntax : editorSyntax :=
  { extension := bytes ".bas", interpreter := bytes "basic.pgz", keywords := BAS_HL_keywords,
    singleline_comment_start := bytes "//", multiline_comment_start := bytes "/*",
    multiline_comment_end := bytes "*/",
    flags := HL_HIGHLIGHT_STRINGS ||| HL_HIGHLIGHT_NUMBERS }

def loxSyntax : editorSyntax :=
  { extension := bytes ".lox", interpreter := bytes "lox.pgz", keywords := Lox_HL_keywords,
    singleline_comment_start := bytes "//", multiline_comment_start := bytes "/*",
    multiline_comment_end := bytes "*/",
    flags := HL_HIGHLIGHT_STRINGS ||| HL_HIGHLIGHT_NUMBERS }

/-- The state `initEditor` leaves, for a window of the given size and with the
descriptor chosen by `editorSelectSyntaxHighlight` already stored. -/
def initEditor (screenrows screencols : Int) (syn : Option editorSyntax) : editorConfig :=
  { cx := 0, cy := 0, rowoff := 0, coloff := 0, screenrows := screenrows,
    screencols := screencols, numrows := 0, row := [], dirty := 0, syn := syn }

/-! ## Buffers and the C library -/

/-- Read one byte of a buffer; `0` past the end of the list. -/
def rd (buf : List Nat) (k : Nat) : Nat := buf.getD k 0

/-- The `n` bytes of `buf` from offset `off` on, as a `memcpy` or `memmove`
reads them. -/
def readN (buf : List Nat) (off n : Nat) : List Nat :=
  (List.range n).map (fun k => rd buf (off + k))

/-- Store `data` into `buf` from offset `off` on; bytes that would fall past the
end of `buf` are dropped. -/
def writeAt (buf : List Nat) (off : Nat) (data : List Nat) : List Nat :=
  buf.take off ++ data.take (buf.length - off) ++ buf.drop (off + data.length)

/-- The C function `realloc`, for a buffer of `n` bytes: the old bytes are kept
up to the new length; the fresh bytes, indeterminate in C, are `0` here. -/
def realloc (buf : List Nat) (n : Nat) : List Nat :=
  (buf ++ List.replicate n 0).take n

def memset (buf : List Nat) (off v n : Nat) : List Nat :=
  writeAt buf off (List.replicate n v)

/-- The call `memcpy(dst + off, src, n)`. -/
def memcpy (dst : List Nat) (off : Nat) (src : List Nat) (n : Nat) : List Nat :=
  writeAt dst off (readN src 0 n)

/-- The call `memmove(buf + dst, buf + src, n)`: the source bytes are read
before any byte is written. -/
def memmove (buf : List Nat) (dst src n : Nat) : List Nat :=
  writeAt buf dst (readN buf src n)

/-- The C function `isspace` in the C locale. -/
def isspace (c : Nat) : Bool := c == 32 || (9 ≤ c && c ≤ 13)

/-- The C function `isprint` in the C locale. -/
def isprint (c : Nat) : Bool := 32 ≤ c && c ≤ 126

def isdigit (c : Nat) : Bool := 48 ≤ c && c ≤ 57

def is_separator (c : Nat) : Bool :=
  c == 0 || isspace c || (bytes ",.()+-/*=~%[];").contains c

/-- The first content bytes of a row: `chars[0 .. size)`. -/
def erow.content (r : erow) : List Nat := r.chars.take r.size

/-- The rendered form of a row: `render[0 .. rsize)`. -/
def erow.rendered (r : erow) : List Nat := r.render.take r.rsize

/-! ## Syntax highlighting -/

/-- The C function `editorRowHasOpenComment`.  The test `row->hl` of the source
is not modelled: `hl` is a null pointer only while `rsize` is `0`. -/
def editorRowHasOpenComment (row : erow) : Nat :=
  if row.rsize != 0 && rd row.hl (row.rsize - 1) == HL_MLCOMMENT &&
      (decide (row.rsize < 2) || (rd row.render (row.rsize - 2) != 42 ||
                                  rd row.render (row.rsize - 1) != 47))
  then 1 else 0

/-- The local variables of the scanning loop of `editorUpdateSyntax`; `p` is
`row->render + i` throughout.  `oob` records a write through `row->hl` at an
offset outside `[0, rsize)`. -/
structure ScanState where
  i : Nat
  prev_sep : Bool
  in_string : Nat
  in_comment : Bool
  hl : List Nat
  oob : Bool
deriving DecidableEq, Repr

/-- The assignment `row->hl[k] = v`. -/
def ScanState.setHl (st : ScanState) (k v : Nat) : ScanState :=
  { st with hl := st.hl.set k v, oob := st.oob || decide (st.hl.length ≤ k) }

/-- The call `memset(row->hl + off, v, n)`. -/
def ScanState.memsetHl (st : ScanState) (off v n : Nat) : ScanState :=
  { st with hl := memset st.hl off v n,
            oob := st.oob || decide (0 < n ∧ st.hl.length < off + n) }

/-- The value of the `int` expression `a - b` converted to `size_t` (32 bits). -/
def subSizeT (a b : Nat) : Nat :=
  if b ≤ a then a - b else (2 ^ 32 - (b - a) % 2 ^ 32) % 2 ^ 32

/-- The test `!memcmp(p, kw, klen)` with `p = render + i`. -/
def kwMatches (render : List Nat) (i : Nat) (kw : List Nat) (klen : Nat) : Bool :=
  (List.range klen).all (fun k => rd render (i + k) == rd kw k)

/-- The keyword loop of `editorUpdateSyntax`: the length and class of the first
list entry that matches at offset `i` and is followed by a separator. -/
def findKeyword (render : List Nat) (i : Nat) : List (List Nat) → Option (Nat × Bool)
  | [] => none
  | kw :: rest =>
    let klen0 := kw.length
    let kw2 := rd kw (klen0 - 1) == 124
    let klen := if kw2 then klen0 - 1 else klen0
    if kwMatches render i kw klen && is_separator (rd render (i + klen)) then
      some (klen, kw2)
    else findKeyword render i rest

/-- What one pass through the body of `while(*p)` does: go on with the loop, or
return from `editorUpdateSyntax` (the line-comment case). -/
inductive ScanStep where
  | next (st : ScanState)
  | ret (st : ScanState)
deriving DecidableEq, Repr

/-- One pass through the body of the loop `while(*p)` of `editorUpdateSyntax`. -/
def scanStep (sy : editorSyntax) (render : List Nat) (size : Nat) (st : ScanState) :
    ScanStep :=
  let c := rd render st.i
  let c1 := rd render (st.i + 1)
  let scs := sy.singleline_comment_start
  let mcs := sy.multiline_comment_start
  let mce := sy.multiline_comment_end
  if st.prev_sep && c == rd scs 0 && c1 == rd scs 1 then
    .ret (st.memsetHl st.i HL_COMMENT (subSizeT size st.i))
  else if st.in_comment then
    let st1 := st.setHl st.i HL_MLCOMMENT
    if c == rd mce 0 && c1 == rd mce 1 then
      .next { st1.setHl (st.i + 1) HL_MLCOMMENT with
              i := st.i + 2, in_comment := false, prev_sep := true }
    else
      .next { st1 with prev_sep := false, i := st.i + 1 }
  else if c == rd mcs 0 && c1 == rd mcs 1 then
    .next { (st.setHl st.i HL_MLCOMMENT).setHl (st.i + 1) HL_MLCOMMENT with
            i := st.i + 2, in_comment := true, prev_sep := false }
  else if st.in_string != 0 then
    let st1 := st.setHl st.i HL_STRING
    if c == 92 then
      .next { st1.setHl (st.i + 1) HL_STRING with i := st.i + 2, prev_sep := false }
    else
      .next { st1 with in_string := if c == st.in_string then 0 else st.in_string,
                       i := st.i + 1 }
  else if c == 34 || c == 39 then
    .next { st.setHl st.i HL_STRING with in_string := c, i := st.i + 1, prev_sep := false }
  else if !isprint c then
    .next { st.setHl st.i HL_NONPRINT with i := st.i + 1, prev_sep := false }
  else if (isdigit c && (st.prev_sep || rd st.hl (st.i - 1) == HL_NUMBER)) ||
          (c == 46 && decide (0 < st.i) && rd st.hl (st.i - 1) == HL_NUMBER) then
    .next { st.setHl st.i HL_NUMBER with i := st.i + 1, prev_sep := false }
  else
    match (if st.prev_sep then findKeyword render st.i sy.keywords else none) with
    | some (klen, kw2) =>
      .next { st.memsetHl st.i (if kw2 then HL_KEYWORD2 else HL_KEYWORD1) klen with
              i := st.i + klen, prev_sep := false }
    | none =>
      .next { st with prev_sep := is_separator c, i := st.i + 1 }

/-- The loop `while(*p)` of `editorUpdateSyntax`, at most `fuel` passes.  The
Boolean of the result tells whether the function returned from inside the
loop.  Once `p` has moved past the last byte of `render` (the step `p += 2`
behind a backslash that ends the row steps over the terminator), the test `*p`
reads outside the buffer: the scan ends there with `oob` set, and nothing is
said of what the source does from there on. -/
def scanLoop (sy : editorSyntax) (render : List Nat) (size : Nat) :
    Nat → ScanState → Option (ScanState × Bool)
  | 0, _ => none
  | fuel + 1, st =>
    if render.length ≤ st.i then some ({ st with oob := true }, false)
    else if rd render st.i = 0 then some (st, false)
    else
      match scanStep sy render size st with
      | .ret st1 => some (st1, true)
      | .next st1 => scanLoop sy render size fuel st1

/-- The loop `while(*p && isspace(*p))` that skips the leading blanks. -/
def skipSpaces (render : List Nat) : Nat :=
  (render.takeWhile (fun c => c != 0 && isspace c)).length

/-- The scan of one row by `editorUpdateSyntax`, from the `memset` of `hl` to
the end of the loop, for a row with the given rendered buffer, `rsize` and
`size`, started inside a block comment or not.  Two passes of the loop move `p`
forward by at least one byte, so `2 * length + 3` passes are never used up. -/
def hlScan (sy : editorSyntax) (render : List Nat) (rsize size : Nat) (in_comment : Bool) :
    Option (ScanState × Bool) :=
  scanLoop sy render size (2 * render.length + 3)
    { i := skipSpaces render, prev_sep := true, in_string := 0, in_comment := in_comment,
      hl := List.replicate rsize HL_NORMAL, oob := false }

/-- Apply `f` to the row at position `pos`. -/
def updRow (rows : List erow) (pos : Nat) (f : erow → erow) : List erow :=
  match rows[pos]? with
  | some r => rows.set pos (f r)
  | none => rows

/-- The C function `editorUpdateSyntax` on the row at position `pos`, together
with the positions of the rows it recomputed, in order.  `none`: the scan of a
row wrote through `row->hl`, or read `render`, outside the array (`oob`), where
the behaviour of the source is undefined; or the fuel for the recursive call is
used up; or `pos` is not a row. -/
def editorUpdateSyntaxT : Nat → editorConfig → Nat → Option (editorConfig × List Nat)
  | 0, _, _ => none
  | fuel + 1, E, pos =>
    match E.row[pos]? with
    | none => none
    | some row =>
      let E0 := { E with row := E.row.set pos { row with hl := List.replicate row.rsize HL_NORMAL } }
      match E.syn with
      | none => some (E0, [pos])
      | some sy =>
        let in_comment := decide (0 < row.idx) &&
          (match E0.row[row.idx - 1]? with
           | some prev => editorRowHasOpenComment prev != 0
           | none => false)
        match hlScan sy row.render row.rsize row.size in_comment with
        | none => none
        | some (st, ret) =>
          if st.oob then none
          else if ret then
            some ({ E with row := E.row.set pos { row with hl := st.hl } }, [pos])
          else
            let row1 := { row with hl := st.hl }
            let oc := editorRowHasOpenComment row1
            if row.hl_oc ≠ oc ∧ row.idx + 1 < E.numrows then
              match editorUpdateSyntaxT fuel { E with row := E.row.set pos row1 } (row.idx + 1) with
              | none => none
              | some (E2, tr) =>
                some ({ E2 with row := updRow E2.row pos (fun r => { r with hl_oc := oc }) },
                      pos :: tr)
            else
              some ({ E with row := E.row.set pos { row1 with hl_oc := oc } }, [pos])

/-- The C function `editorUpdateSyntax` on the row at position `pos`. -/
def editorUpdateSyntax (fuel : Nat) (E : editorConfig) (pos : Nat) : Option editorConfig :=
  (editorUpdateSyntaxT fuel E pos).map Prod.fst

/-! ## Rows -/

/-- The inner loop `while((idx+1) % 8 != 0) row->render[idx++] = ' '` of
`editorUpdateRow`; `out` is `render[0 .. idx)`. -/
def tabPad : Nat → List Nat → List Nat
  | 0, out => out
  | n + 1, out => if (out.length + 1) % 8 ≠ 0 then tabPad n (out ++ [32]) else out

/-- The loop of `editorUpdateRow` that fills `row->render`: the rendered bytes
`render[0 .. idx)` for the content `chars[0 .. size)`. -/
def renderBytes (chars : List Nat) (size : Nat) : List Nat :=
  (List.range size).foldl
    (fun out j => if rd chars j = TAB then tabPad 8 (out ++ [32]) else out ++ [rd chars j]) []

/-- The first part of `editorUpdateRow`: `render` and `rsize` derived anew from
`chars[0 .. size)`, the terminator stored behind the rendered bytes. -/
def rerender (row : erow) : erow :=
  { row with render := renderBytes row.chars row.size ++ [0],
             rsize := (renderBytes row.chars row.size).length }

/-- The C function `editorUpdateRow` on the row at position `pos`.  The exit
taken for a row of more than `UINT32_MAX` bytes is not modelled. -/
def editorUpdateRow (fuel : Nat) (E : editorConfig) (pos : Nat) : Option editorConfig :=
  match E.row[pos]? with
  | none => none
  | some row => editorUpdateSyntax fuel { E with row := E.row.set pos (rerender row) } pos

/-- The row `editorInsertRow(at, s, len)` stores in `E.row[at]` before it calls
`editorUpdateRow`: `len + 1` bytes copied from `s`, no rendered form yet. -/
def newRow (at_ : Nat) (s : List Nat) (len : Nat) : erow :=
  { idx := at_, size := len, rsize := 0, chars := readN s 0 (len + 1), render := [],
    hl := [], hl_oc := 0 }

/-- The statement `E.row[j].idx++` on one row. -/
def incIdx (r : erow) : erow := { r with idx := r.idx + 1 }

/-- The C function `editorInsertRow(at, s, len)`. -/
def editorInsertRow (fuel : Nat) (E : editorConfig) (at_ : Nat) (s : List Nat) (len : Nat) :
    Option editorConfig :=
  if at_ > E.numrows then some E
  else
    let shifted := ((E.row.drop at_).take (E.numrows - at_)).map incIdx
    match editorUpdateRow fuel
        { E with row := E.row.take at_ ++ newRow at_ s len :: shifted } at_ with
    | none => none
    | some E1 => some { E1 with numrows := E1.numrows + 1, dirty := E1.dirty + 1 }

/-- The C function `editorDelRow(at)`.  The slot the source leaves behind the
last row is not part of the model. -/
def editorDelRow (E : editorConfig) (at_ : Nat) : editorConfig :=
  if at_ ≥ E.numrows then E
  else
    { E with
      row := E.row.take at_ ++ ((E.row.drop (at_ + 1)).take (E.numrows - at_ - 1)).map incIdx,
      numrows := E.numrows - 1,
      dirty := E.dirty + 1 }

/-- The C function `editorRowsToString`: the bytes stored in the buffer (the
final NUL included) and the value stored in `*buflen`. -/
def editorRowsToString (E : editorConfig) : List Nat × Nat :=
  let rows := (List.range E.numrows).map (fun j => E.row.getD j
    { idx := 0, size := 0, rsize := 0, chars := [], render := [], hl := [], hl_oc := 0 })
  let totlen := (rows.map (fun r => r.size + 1)).sum
  (rows.foldl (fun buf r => buf ++ readN r.chars 0 r.size ++ [10]) [] ++ [0], totlen)

/-- The C function `editorRowInsertChar(row, at, c)` for the row at position
`pos`. -/
def editorRowInsertChar (fuel : Nat) (E : editorConfig) (pos at_ c : Nat) :
    Option editorConfig :=
  match E.row[pos]? with
  | none => none
  | some row =>
    let row1 : erow :=
      if at_ > row.size then
        let padlen := at_ - row.size
        let chars1 := realloc row.chars (row.size + padlen + 2)
        let chars2 := memset chars1 row.size 32 padlen
        let chars3 := chars2.set (row.size + padlen + 1) 0
        { row with chars := chars3, size := row.size + (padlen + 1) }
      else
        let chars1 := realloc row.chars (row.size + 2)
        let chars2 := memmove chars1 (at_ + 1) at_ (row.size - at_ + 1)
        { row with chars := chars2, size := row.size + 1 }
    let row2 := { row1 with chars := row1.chars.set at_ (c % 256) }
    match editorUpdateRow fuel { E with row := E.row.set pos row2 } pos with
    | none => none
    | some E1 => some { E1 with dirty := E1.dirty + 1 }

/-- The C function `editorRowAppendString(row, s, len)` for the row at position
`pos`. -/
def editorRowAppendString (fuel : Nat) (E : editorConfig) (pos : Nat) (s : List Nat)
    (len : Nat) : Option editorConfig :=
  match E.row[pos]? with
  | none => none
  | some row =>
    let chars1 := realloc row.chars (row.size + len + 1)
    let chars2 := memcpy chars1 row.size s len
    let size1 := row.size + len
    let row1 := { row with chars := chars2.set size1 0, size := size1 }
    match editorUpdateRow fuel { E with row := E.row.set pos row1 } pos with
    | none => none
    | some E1 => some { E1 with dirty := E1.dirty + 1 }

/-- The C function `editorRowDelChar(row, at)` for the row at position `pos`:
the row is rendered and highlighted before `size` is decremented, as in the
source. -/
def editorRowDelChar (fuel : Nat) (E : editorConfig) (pos at_ : Nat) : Option editorConfig :=
  match E.row[pos]? with
  | none => none
  | some row =>
    if row.size ≤ at_ then some E
    else
      let chars1 := memmove row.chars at_ (at_ + 1) (row.size - at_)
      match editorUpdateRow fuel { E with row := E.row.set pos { row with chars := chars1 } } pos with
      | none => none
      | some E1 =>
        some { E1 with row := updRow E1.row pos (fun r => { r with size := r.size - 1 }),
                       dirty := E1.dirty + 1 }

/-- The label `fixcursor` of `editorInsertNewline`. -/
def fixcursor (E : editorConfig) : editorConfig :=
  let E1 := if E.cy = E.screenrows - 1 then { E with rowoff := E.rowoff + 1 }
            else { E with cy := E.cy + 1 }
  { E1 with cx := 0, coloff := 0 }

/-- The C function `editorInsertNewline`.  `none` also for a negative file row
or column, where the source indexes `E.row` or `row->chars` below its start. -/
def editorInsertNewline (fuel : Nat) (E : editorConfig) : Option editorConfig :=
  let filerow := E.rowoff + E.cy
  let filecol := E.coloff + E.cx
  if filerow < 0 then none
  else if filerow ≥ E.numrows then
    if filerow = E.numrows then (editorInsertRow fuel E filerow.toNat [] 0).map fixcursor
    else some E
  else
    match E.row[filerow.toNat]? with
    | none => none
    | some row =>
      let filecol := if filecol ≥ row.size then (row.size : Int) else filecol
      if filecol = 0 then (editorInsertRow fuel E filerow.toNat [] 0).map fixcursor
      else if filecol < 0 then none
      else
        match editorInsertRow fuel E (filerow.toNat + 1) (row.chars.drop filecol.toNat)
                (row.size - filecol.toNat) with
        | none => none
        | some E1 =>
          match E1.row[filerow.toNat]? with
          | none => none
          | some row1 =>
            let row2 := { row1 with chars := row1.chars.set filecol.toNat 0,
                                    size := filecol.toNat }
            (editorUpdateRow fuel { E1 with row := E1.row.set filerow.toNat row2 }
              filerow.toNat).map fixcursor

/-- The loop body of `editorOpen` once a line is read and its terminator
removed: `editorInsertRow(E.numrows, line, linelen)` for each line in turn. -/
def loadLines (fuel : Nat) : editorConfig → List (List Nat) → Option editorConfig
  | E, [] => some E
  | E, line :: rest =>
    match editorInsertRow fuel E E.numrows line line.length with
    | none => none
    | some E1 => loadLines fuel E1 rest

/-! ## Deleting at the cursor -/

/-- The C function `editorDelChar`.  `none` also for a negative file row or
column, where the source indexes `E.row` or `row->chars` below its start. -/
def editorDelChar (fuel : Nat) (E : editorConfig) : Option editorConfig :=
  let filerow := E.rowoff + E.cy
  let filecol := E.coloff + E.cx
  if filerow < 0 then none
  else if filerow ≥ E.numrows then some E
  else if filecol = 0 ∧ filerow = 0 then some E
  else
    match E.row[filerow.toNat]? with
    | none => none
    | some row =>
      if filecol = 0 then
        match E.row[filerow.toNat - 1]? with
        | none => none
        | some prev =>
          match editorRowAppendString fuel E (filerow.toNat - 1) row.chars row.size with
          | none => none
          | some E1 =>
            let E2 := editorDelRow E1 filerow.toNat
            let E3 := if E2.cy = 0 then { E2 with rowoff := E2.rowoff - 1 }
                      else { E2 with cy := E2.cy - 1 }
            let E4 := { E3 with cx := (prev.size : Int) }
            let E5 :=
              if E4.cx ≥ E4.screencols then
                let shift : Int := (E4.screencols - E4.cx) + 1
                { E4 with cx := E4.cx - shift, coloff := E4.coloff + shift }
              else E4
            some { E5 with dirty := E5.dirty + 1 }
      else if filecol < 0 then none
      else
        match editorRowDelChar fuel E filerow.toNat (filecol.toNat - 1) with
        | none => none
        | some E1 =>
          let E2 := if E1.cx = 0 ∧ E1.coloff ≠ 0 then { E1 with coloff := E1.coloff - 1 }
                    else { E1 with cx := E1.cx - 1 }
          match editorUpdateRow fuel E2 filerow.toNat with
          | none => none
          | some E3 => some { E3 with dirty := E3.dirty + 1 }

/-! ## Input decoding (`input.c`) -/

def CLI_FLAG_CTRL : Nat := 0x0100
def CLI_FLAG_SHIFT : Nat := 0x0200
def CLI_FLAG_ALT : Nat := 0x0400
def CLI_FLAG_OS : Nat := 0x0800
def CLI_FLAG_FUNC : Nat := 0x4000
def CLI_FLAG_SPEC : Nat := 0x8000
def CLI_KEY_LEFT : Nat := 0x8001
def CLI_KEY_RIGHT : Nat := 0x8002
def CLI_KEY_UP : Nat := 0x8003
def CLI_KEY_DOWN : Nat := 0x8004
def CLI_KEY_DEL : Nat := 0x8005
def CLI_KEY_MONITOR : Nat := 0x8010
def CLI_KEY_CTX : Nat := 0x8011
def CLI_KEY_HELP : Nat := 0x8012

/-- Modelled from the spec: the macro `CHAR_ESC` comes from `mcp/syscalls.h`,
which is not among the sources; it is the ESC byte `0x1B`. -/
def CHAR_ESC : Nat := 27

/-- The states of the escape-sequence decoder (`cli_state`). -/
inductive cli_state where
  | CLI_ES_BASE
  | CLI_ES_ESC
  | CLI_ES_CSI
  | CLI_ES_SEMI
deriving DecidableEq, Repr

/-- The C function `isalpha` in the C locale. -/
def isalpha (c : Nat) : Bool := (65 ≤ c && c ≤ 90) || (97 ≤ c && c ≤ 122)

/-- The C function `cli_translate_modifiers`.  A `short` is its 16-bit pattern
(the value taken `& 0xFFFF`), so `modifiers > 0` reads `0 < m < 0x8000`. -/
def cli_translate_modifiers (modifiers : Nat) : Nat :=
  let m := if 0 < modifiers ∧ modifiers < 0x8000 then modifiers - 1 else modifiers
  let flags := 0
  let flags := if m &&& 0x01 ≠ 0 then flags ||| CLI_FLAG_SHIFT else flags
  let flags := if m &&& 0x02 ≠ 0 then flags ||| CLI_FLAG_ALT else flags
  let flags := if m &&& 0x04 ≠ 0 then flags ||| CLI_FLAG_CTRL else flags
  let flags := if m &&& 0x08 ≠ 0 then flags ||| CLI_FLAG_OS else flags
  flags

/-- The C function `cli_translate_alpha`. -/
def cli_translate_alpha (modifiers : Nat) (code : Nat) : Nat :=
  let key_code := cli_translate_modifiers modifiers
  if code = 65 then key_code ||| CLI_KEY_UP
  else if code = 66 then key_code ||| CLI_KEY_DOWN
  else if code = 67 then key_code ||| CLI_KEY_RIGHT
  else if code = 68 then key_code ||| CLI_KEY_LEFT
  else 0

/-- The C function `cli_translate_numeric`. -/
def cli_translate_numeric (modifiers : Nat) (code : Nat) : Nat :=
  let key_code := cli_translate_modifiers modifiers
  if 11 ≤ code ∧ code ≤ 15 then key_code ||| CLI_FLAG_FUNC ||| (code - 10)
  else if 17 ≤ code ∧ code ≤ 21 then key_code ||| CLI_FLAG_FUNC ||| (code - 11)
  else if code = 30 then key_code ||| CLI_KEY_MONITOR
  else if code = 31 then key_code ||| CLI_KEY_CTX
  else if code = 32 then key_code ||| CLI_KEY_HELP
  else if code = 3 then key_code ||| CLI_KEY_DEL
  else 0

/-- The statement `return c` of `cli_getchar`, where `c` is a plain `char` and
the function returns `short`: the 16-bit pattern of the returned value.  Whether
plain `char` is signed is left to the compiler (it is on the m68k target); a
signed `char` holding a byte from `0x80` on is negative and is sign-extended. -/
def charToShort (signedChar : Bool) (c : Nat) : Nat :=
  if signedChar && decide (0x80 ≤ c) then 0xFF00 + c else c

/-- The statement `number = number * 10 + (c - '0')` on a `short`. -/
def shiftDigit (number c : Nat) : Nat := (number * 10 + (c - 48)) % 0x10000

/-- The loop of the C function `cli_getchar`, reading its bytes
(`sys_chan_read_b`) from the front of `input`.  The result is the key event,
as a 16-bit pattern, and the input that is left; `none` when the input ends
before a key event is complete (the source blocks). -/
def cli_getchar_loop (signedChar : Bool) :
    List Nat → cli_state → Nat → Nat → Option (Nat × List Nat)
  | [], _, _, _ => none
  | b :: rest, state, number1, number2 =>
    let c := b % 256
    match state with
    | .CLI_ES_BASE =>
      if c = CHAR_ESC then cli_getchar_loop signedChar rest .CLI_ES_ESC number1 number2
      else some (charToShort signedChar c, rest)
    | .CLI_ES_ESC =>
      if c = 91 then cli_getchar_loop signedChar rest .CLI_ES_CSI number1 number2
      else some (charToShort signedChar c, rest)
    | .CLI_ES_CSI =>
      if isdigit c then
        cli_getchar_loop signedChar rest .CLI_ES_CSI (shiftDigit number1 c) number2
      else if isalpha c then some (cli_translate_alpha number1 c, rest)
      else if c = 59 then cli_getchar_loop signedChar rest .CLI_ES_SEMI number1 number2
      else if c = 126 then some (cli_translate_numeric 0 number1, rest)
      else some (charToShort signedChar c, rest)
    | .CLI_ES_SEMI =>
      if isdigit c then
        cli_getchar_loop signedChar rest .CLI_ES_SEMI number1 (shiftDigit number2 c)
      else if c = 126 then some (cli_translate_numeric number2 number1, rest)
      else some (charToShort signedChar c, rest)

/-- The C function `cli_getchar`. -/
def cli_getchar (signedChar : Bool) (input : List Nat) : Option (Nat × List Nat) :=
  cli_getchar_loop signedChar input .CLI_ES_BASE 0 0

/-! ## Find mode -/

/-- The enumerators `BACKSPACE`, `ENTER` and `ESC` of `enum ControlKeys` in
`input.h` (`KEY_NULL = 0`, then one more for each name). -/
def BACKSPACE : Nat := 8
def ENTER : Nat := 13
def ESC : Nat := 27

def KILO_QUERY_LEN : Nat := 256

/-- The bytes of the C string that starts at `buf[0]`: those before the first
NUL byte. -/
def cstr (buf : List Nat) : List Nat := buf.takeWhile (fun c => c != 0)

/-- The search of `strstr` through what is left of the haystack: the first
offset, counted on from `o`, at which `needle` is a prefix. -/
def strstrFrom (needle : List Nat) : List Nat → Nat → Option Nat
  | [], o => if needle.isPrefixOf [] then some o else none
  | c :: t, o => if needle.isPrefixOf (c :: t) then some o else strstrFrom needle t (o + 1)

/-- The C function `strstr` on two NUL-terminated buffers; the result is the
offset `match - hay`, and `none` stands for the null pointer. -/
def strstr (hay needle : List Nat) : Option Nat := strstrFrom (cstr needle) (cstr hay) 0

/-- The local variables of `editorFind`, with the global `E`.  `query` holds the
`qlen` bytes before the terminator; `saved_hl` is `none` for the null pointer. -/
structure FindState where
  E : editorConfig
  query : List Nat
  last_match : Int
  find_next : Int
  saved_hl_line : Int
  saved_hl : Option (List Nat)
  saved_cx : Int
  saved_cy : Int
  saved_coloff : Int
  saved_rowoff : Int
deriving DecidableEq, Repr

/-- The macro `FIND_RESTORE_HL` of `editorFind`. -/
def FIND_RESTORE_HL (st : FindState) : FindState :=
  match st.saved_hl with
  | none => st
  | some saved =>
    { st with
      E := { st.E with
             row := updRow st.E.row st.saved_hl_line.toNat
                      (fun r => { r with hl := memcpy r.hl 0 saved r.rsize }) },
      saved_hl := none }

/-- The loop `for (i = 0; i < E.numrows; i++)` of `editorFind` with `n` passes
left.  The result is the match, as the row `current` and `match_offset`, or
`none` for `match == NULL`, and the rows handed to `strstr` so far, in order.
The whole result is `none` when `current` is not a row of the document. -/
def findScan (E : editorConfig) (query : List Nat) (find_next : Int) :
    Nat → Int → List Nat → Option (Option (Nat × Nat) × List Nat)
  | 0, _, seen => some (none, seen)
  | n + 1, current, seen =>
    let c1 := current + find_next
    let c2 := if c1 = -1 then (E.numrows : Int) - 1
              else if c1 = (E.numrows : Int) then 0 else c1
    if c2 < 0 then none
    else
      match E.row[c2.toNat]? with
      | none => none
      | some row =>
        match strstr row.render query with
        | some off => some (some (c2.toNat, off), seen ++ [c2.toNat])
        | none => findScan E query find_next n c2 (seen ++ [c2.toNat])

/-- The cursor placement of `editorFind` on a match in row `current` at
`match_offset`. -/
def findPlaceCursor (E : editorConfig) (current match_offset : Nat) : editorConfig :=
  let E1 := { E with cy := 0, cx := (match_offset : Int), rowoff := (current : Int), coloff := 0 }
  if E1.cx > E1.screencols then
    let diff : Int := E1.cx - E1.screencols
    { E1 with cx := E1.cx - diff, coloff := E1.coloff + diff }
  else E1

/-- The body of `if (find_next) { ... }` in `editorFind`: the scan, the macro
`FIND_RESTORE_HL`, and the overlay and cursor placement for a match.  The test
`row->hl` reads `row.hl ≠ []`: a null pointer stands for an array of no bytes.
`none`: a row outside the document is read, or the `memset` of `HL_MATCH` does
not fit the highlight array. -/
def findOccurrence (st : FindState) : Option FindState :=
  match findScan st.E st.query st.find_next st.E.numrows st.last_match [] with
  | none => none
  | some (m, _) =>
    let st1 := FIND_RESTORE_HL { st with find_next := 0 }
    match m with
    | none => some st1
    | some (current, match_offset) =>
      match st1.E.row[current]? with
      | none => none
      | some row =>
        let qlen := st1.query.length
        if row.hl ≠ [] ∧ 0 < qlen ∧ row.hl.length < match_offset + qlen then none
        else
          let st2 := { st1 with last_match := (current : Int) }
          let st3 :=
            if row.hl ≠ [] then
              { st2 with
                saved_hl_line := (current : Int),
                saved_hl := some (readN row.hl 0 row.rsize),
                E := { st2.E with
                       row := st2.E.row.set current
                                { row with hl := memset row.hl match_offset HL_MATCH qlen } } }
            else st2
          some { st3 with E := findPlaceCursor st3.E current match_offset }

/-- The part `Search occurrence` of the loop body of `editorFind`. -/
def editorFindSearch (st0 : FindState) : Option FindState :=
  let st := if st0.last_match = -1 then { st0 with find_next := 1 } else st0
  if st.find_next = 0 then some st else findOccurrence st

/-- What one pass through the loop `while(1)` of `editorFind` does: go on with
the loop, or return. -/
inductive FindStep where
  | next (st : FindState)
  | ret (E : editorConfig)
deriving DecidableEq, Repr

/-- One pass through the loop `while(1)` of `editorFind`, for the key event
`key` that `cli_getchar` returns.  The status message and the screen are not
part of the model.  `isprint` is taken to be false for a key event with a flag
bit. -/
def editorFindKey (key : Nat) (st : FindState) : Option FindStep :=
  let c := key % 0x10000
  if c = BACKSPACE then
    (editorFindSearch { st with query := st.query.dropLast, last_match := -1 }).map .next
  else if c = ESC ∨ c = ENTER then
    let st1 :=
      if c = ESC then
        { st with E := { st.E with cx := st.saved_cx, cy := st.saved_cy,
                                   coloff := st.saved_coloff, rowoff := st.saved_rowoff } }
      else st
    some (.ret (FIND_RESTORE_HL st1).E)
  else if c = CLI_KEY_RIGHT ∨ c = CLI_KEY_DOWN then
    (editorFindSearch { st with find_next := 1 }).map .next
  else if c = CLI_KEY_LEFT ∨ c = CLI_KEY_UP then
    (editorFindSearch { st with find_next := -1 }).map .next
  else if isprint c then
    if st.query.length < KILO_QUERY_LEN then
      (editorFindSearch { st with query := st.query ++ [c], last_match := -1 }).map .next
    else (editorFindSearch st).map .next
  else (editorFindSearch st).map .next

/-- The local variables of `editorFind` when it enters its loop. -/
def findInit (E : editorConfig) : FindState :=
  { E := E, query := [], last_match := -1, find_next := 0, saved_hl_line := -1,
    saved_hl := none, saved_cx := E.cx, saved_cy := E.cy, saved_coloff := E.coloff,
    saved_rowoff := E.rowoff }

/-- The loop `while(1)` of `editorFind` on the key events `keys`: the state
`editorFind` returns with, and the key events left.  `none`: the key events end
before `editorFind` returns (the source waits for a key). -/
def editorFindLoop : List Nat → FindState → Option (editorConfig × List Nat)
  | [], _ => none
  | k :: rest, st =>
    match editorFindKey k st with
    | none => none
    | some (.ret E) => some (E, rest)
    | some (.next st1) => editorFindLoop rest st1

/-- The C function `editorFind`, on the key events that `cli_getchar` returns. -/
def editorFind (keys : List Nat) (E : editorConfig) : Option (editorConfig × List Nat) :=
  editorFindLoop keys (findInit E)

/-- The local variables of `editorFind` when it waits for its next key event,
after the key events `keys`, none of which made it return. -/
def editorFindAfter : List Nat → FindState → Option FindState
  | [], st => some st
  | k :: rest, st =>
    match editorFindKey k st with
    | some (.next st1) => editorFindAfter rest st1
    | _ => none

/-! ## Well-formed documents -/

/-- The indices of the rows are their positions: `E.row[j].idx = j`. -/
def dense (rows : List erow) : Prop := rows.map erow.idx = List.range rows.length

instance (rows : List erow) : Decidable (dense rows) := by
  unfold dense; infer_instance

/-- A document on which `editorFind` can run: `numrows` counts the rows, and
every row has one highlight tag per rendered byte and a terminator behind its
rendered bytes, as `editorUpdateRow` leaves it. -/
def findReady (E : editorConfig) : Prop :=
  E.numrows = E.row.length ∧
  ∀ r ∈ E.row, r.hl.length = r.rsize ∧ rd r.render r.rsize = 0

instance (E : editorConfig) : Decidable (findReady E) := by
  unfold findReady; infer_instance

/-- What holds of the local variables of `editorFind` whenever it waits for a
key event, for the document `E0` it was entered with: only the cursor, the
viewport and at most one highlight array differ from `E0`; the saved cursor is
that of `E0`; `last_match` is `-1` or a row; no byte of the query is NUL; and
`saved_hl` is a copy of the highlight array that row `saved_hl_line` has in
`E0`. -/
structure FindInv (E0 : editorConfig) (st : FindState) : Prop where
  numrows : st.E.numrows = E0.numrows
  dirty : st.E.dirty = E0.dirty
  syn : st.E.syn = E0.syn
  screenrows : st.E.screenrows = E0.screenrows
  screencols : st.E.screencols = E0.screencols
  cx : st.saved_cx = E0.cx
  cy : st.saved_cy = E0.cy
  coloff : st.saved_coloff = E0.coloff
  rowoff : st.saved_rowoff = E0.rowoff
  last_lo : -1 ≤ st.last_match
  last_hi : st.last_match < (E0.numrows : Int)
  query : ∀ c ∈ st.query, c ≠ 0
  rows :
    match st.saved_hl with
    | none => st.E.row = E0.row
    | some saved =>
      ∃ (l : Nat) (row0 : erow) (h1 : List Nat),
        st.saved_hl_line = (l : Int) ∧ E0.row[l]? = some row0 ∧
        saved = readN row0.hl 0 row0.rsize ∧ h1.length = row0.hl.length ∧
        st.E.row = E0.row.set l { row0 with hl := h1 }

/-- The rows `m + 1`, `m + 2`, ... of a document of `N` rows in cyclic order,
for `start = m + 1`: `N` rows, from `start` on, wrapping to row 0 behind row
`N - 1`. -/
def cyclicFrom (N start : Nat) : List Nat := (List.range N).map (fun k => (start + k) % N)

/-- Whether the rendered form of row `j` contains the query as a substring. -/
def rowContains (E : editorConfig) (query : List Nat) (j : Nat) : Bool :=
  match E.row[j]? with
  | some row => decide (query <:+: row.rendered)
  | none => false

/-- Whether `strstr` finds the query in the rendered buffer of row `j`. -/
def rowMatches (E : editorConfig) (query : List Nat) (j : Nat) : Bool :=
  match E.row[j]? with
  | some row => (strstr row.render query).isSome
  | none => false

/-- Whether a highlight tag is one of the two keyword classes. -/
def isKeywordTag (t : Nat) : Bool := t == HL_KEYWORD1 || t == HL_KEYWORD2

/-- What holds of the highlight array while the scan stands at offset `i` of a
rendered buffer whose highlight array has `L` tags: keyword tags lie before `i`,
and behind a keyword tag comes the same tag again or a separator byte, or the
array ends. -/
def kwOk (render : List Nat) (L : Nat) (hl : List Nat) (i : Nat) : Prop :=
  hl.length = L ∧
  ∀ k, isKeywordTag (rd hl k) = true →
    k < i ∧ (k + 1 < L →
      rd hl (k + 1) = rd hl k ∨ is_separator (rd render (k + 1)) = true)

/-- The tags of a row in which a span of tags of one keyword class ends at a
separator byte or at the end of the row: one tag per rendered byte, and where a
keyword tag is followed by a different tag, the rendered byte there is a
separator. -/
def kwEnds (render : List Nat) (rsize : Nat) (hl : List Nat) : Prop :=
  hl.length = rsize ∧
  ∀ k, k + 1 < rsize → isKeywordTag (rd hl k) = true → rd hl (k + 1) ≠ rd hl k →
    is_separator (rd render (k + 1)) = true

/-! ## Cursor movement -/

/-- The expression `(filerow >= E.numrows) ? NULL : &E.row[filerow]` together
with the row it points to: `some none` for the null pointer, and `none` when
`filerow` is negative, where the pointer is outside `E.row`. -/
def rowUnderCursor (E : editorConfig) (filerow : Int) : Option (Option erow) :=
  if filerow ≥ E.numrows then some none
  else if filerow < 0 then none
  else
    match E.row[filerow.toNat]? with
    | none => none
    | some row => some (some row)

/-- The last part of `editorMoveCursor`: `Fix cx if the current line has not
enough chars`. -/
def fixCx (E : editorConfig) : Option editorConfig :=
  let filerow := E.rowoff + E.cy
  let filecol := E.coloff + E.cx
  match rowUnderCursor E filerow with
  | none => none
  | some row =>
    let rowlen : Int :=
      match row with
      | some r => (r.size : Int)
      | none => 0
    if filecol > rowlen then
      let E1 := { E with cx := E.cx - (filecol - rowlen) }
      if E1.cx < 0 then some { E1 with coloff := E1.coloff + E1.cx, cx := 0 }
      else some E1
    else some E

/-- The `switch` of `editorMoveCursor`.  `none`: a row outside the document is
read. -/
def moveCursorSwitch (key : Nat) (E : editorConfig) : Option editorConfig :=
  let filerow := E.rowoff + E.cy
  let filecol := E.coloff + E.cx
  match rowUnderCursor E filerow with
  | none => none
  | some row =>
    if key = CLI_KEY_LEFT then
      if E.cx = 0 then
        if E.coloff ≠ 0 then some { E with coloff := E.coloff - 1 }
        else if filerow > 0 then
          match E.row[filerow.toNat - 1]? with
          | none => none
          | some prev =>
            let E1 := { E with cy := E.cy - 1, cx := (prev.size : Int) }
            if E1.cx > E1.screencols - 1 then
              some { E1 with coloff := E1.cx - E1.screencols + 1, cx := E1.screencols - 1 }
            else some E1
        else some E
      else some { E with cx := E.cx - 1 }
    else if key = CLI_KEY_RIGHT then
      match row with
      | none => some E
      | some r =>
        if filecol < r.size then
          if E.cx = E.screencols - 1 then some { E with coloff := E.coloff + 1 }
          else some { E with cx := E.cx + 1 }
        else if filecol = r.size then
          let E1 : editorConfig := { E with cx := 0, coloff := 0 }
          if E1.cy = E1.screenrows - 1 then some { E1 with rowoff := E1.rowoff + 1 }
          else some { E1 with cy := E1.cy + 1 }
        else some E
    else if key = CLI_KEY_UP then
      if E.cy = 0 then
        if E.rowoff ≠ 0 then some { E with rowoff := E.rowoff - 1 } else some E
      else some { E with cy := E.cy - 1 }
    else if key = CLI_KEY_DOWN then
      if filerow < E.numrows then
        if E.cy = E.screenrows - 1 then some { E with rowoff := E.rowoff + 1 }
        else some { E with cy := E.cy + 1 }
      else some E
    else some E

/-- The C function `editorMoveCursor`. -/
def editorMoveCursor (key : Nat) (E : editorConfig) : Option editorConfig :=
  (moveCursorSwitch key E).bind fixCx

/-- The function `editorMoveCursor` called for each key of a list in turn. -/
def moveCursorKeys : List Nat → editorConfig → Option editorConfig
  | [], E => some E
  | key :: keys, E => (editorMoveCursor key E).bind (moveCursorKeys keys)

/-- The C function `editorMoveEnd`; `/` and `%` of C are `Int.tdiv` and
`Int.tmod`. -/
def editorMoveEnd (E : editorConfig) : Option editorConfig :=
  match rowUnderCursor E (E.rowoff + E.cy) with
  | none => none
  | some row =>
    let rowlen : Int :=
      match row with
      | some r => (r.size : Int)
      | none => 0
    if rowlen > 0 then
      if rowlen > E.screencols then
        some { E with coloff := Int.tdiv E.screencols rowlen * E.screencols,
                      cx := Int.tmod E.screencols rowlen }
      else some { E with coloff := 0, cx := rowlen }
    else some E

/-- The loop `for (j = E.coloff; j < (E.cx+E.coloff); j++)` at the end of
`editorRefreshScreen` with `n` passes left; `cx` is the local variable of that
name, which starts at 1 and only grows. -/
def cursorColumnLoop (chars : List Nat) (size : Nat) : Nat → Nat → Nat → Nat
  | 0, _, cx => cx
  | n + 1, j, cx =>
    let cx1 := if j < size ∧ rd chars j = TAB then cx + (7 - cx % 8) else cx
    cursorColumnLoop chars size n (j + 1) (cx1 + 1)

/-- The column `cx-1` that `editorRefreshScreen` passes to `sys_txt_set_xy`.
`none`: the loop reads `row->chars` at a negative offset, or the file row is
negative. -/
def refreshCursorColumn (E : editorConfig) : Option Nat :=
  match rowUnderCursor E (E.rowoff + E.cy) with
  | none => none
  | some none => some 0
  | some (some row) =>
    if E.cx ≤ 0 then some 0
    else if E.coloff < 0 then none
    else some (cursorColumnLoop row.chars row.size E.cx.toNat E.coloff.toNat 1 - 1)

/-- The cursor is inside the visible window and the offsets are not
negative. -/
def inWindow (E : editorConfig) : Prop :=
  0 ≤ E.cx ∧ E.cx < E.screencols ∧ 0 ≤ E.cy ∧ E.cy < E.screenrows ∧
  0 ≤ E.rowoff ∧ 0 ≤ E.coloff

instance (E : editorConfig) : Decidable (inWindow E) := by
  unfold inWindow; infer_instance

/-! ## Keywords, as the specification words them -/

/-- The text of a keyword list entry: the entry without its trailing marker
`|`. -/
def kwText (kw : List Nat) : List Nat :=
  if rd kw (kw.length - 1) == 124 then kw.take (kw.length - 1) else kw

/-- Whether the text `t` stands at offset `i` of the rendered buffer and is
followed by a separator. -/
def kwFits (render : List Nat) (i : Nat) (t : List Nat) : Bool :=
  readN render i t.length == t && is_separator (rd render (i + t.length))

/-- The length of the longest keyword text of the list that stands at offset
`i` and is followed by a separator; `none` when there is none. -/
def longestKeyword (render : List Nat) (i : Nat) (kws : List (List Nat)) : Option Nat :=
  (((kws.map kwText).filter (kwFits render i)).map List.length).max?

/-- No byte of a keyword text of the list is a separator. -/
def kwsClean (kws : List (List Nat)) : Bool :=
  kws.all (fun kw => (kwText kw).all (fun c => !is_separator c))

/-! ## Sample documents -/

/-- The two-row document that loading the lines `ab` and `cd` under the C
descriptor gives. -/
def docAbCd : editorConfig :=
  (loadLines 1 (initEditor 24 80 (some cSyntax)) [bytes "ab", bytes "cd"]).getD
    (initEditor 24 80 (some cSyntax))

/-- Index, content and highlight array of each row of a document. -/
def view (E : editorConfig) : List (Nat × List Nat × List Nat) :=
  E.row.map (fun r => (r.idx, r.content, r.hl))

/-- The rows `/*` and `x` loaded under the C descriptor. -/
def docComment : editorConfig :=
  (loadLines 1 (initEditor 24 80 (some cSyntax)) [bytes "/*", bytes "x"]).getD
    (initEditor 24 80 (some cSyntax))

/-- The state in which `editorRowInsertChar(&E.row[0], 0, '/')`, called on
`docComment`, reaches `editorUpdateSyntax`: row 0 holds `//*` and is rendered. -/
def docCommentEdited : editorConfig :=
  { docComment with
    row := updRow docComment.row 0
      (fun r => rerender { r with chars := bytes "//*" ++ [0], size := 3 }) }

/-- The rows `foo`, `bar`, `foo` loaded under the C descriptor. -/
def docFooBarFoo : editorConfig :=
  (loadLines 1 (initEditor 24 80 (some cSyntax)) [bytes "foo", bytes "bar", bytes "foo"]).getD
    (initEditor 24 80 (some cSyntax))

/-- The document loaded from the given lines under the C descriptor, in a window
of 24 rows and `cols` columns. -/
def docOf (cols : Int) (lines : List String) : editorConfig :=
  (loadLines 1 (initEditor 24 cols (some cSyntax)) (lines.map bytes)).getD
    (initEditor 24 cols (some cSyntax))

/-- The highlight array and the stored flag of each row of a document. -/
def tags (E : editorConfig) : List (List Nat × Nat) :=
  E.row.map (fun r => (r.hl, r.hl_oc))

/-- The row with the given content, rendered and not yet highlighted, as
`editorUpdateRow` hands it to `editorUpdateSyntax`. -/
def rowOf (s : String) : erow := rerender (newRow 0 (bytes s) (bytes s).length)

/-- The document loaded under the C descriptor from `lines`, in the state in
which `editorRowInsertChar`, called on row `pos`, calls `editorUpdateRow` and
so reaches `editorUpdateSyntax`: the row holds the content `s` it has with the
new byte and is rendered; its highlight array and stored flag, and the other
rows, are as they were loaded. -/
def docEdited (lines : List String) (pos : Nat) (s : String) : editorConfig :=
  { docOf 80 lines with
    row := updRow (docOf 80 lines).row pos
      (fun r => rerender { r with chars := bytes s ++ [0], size := (bytes s).length }) }

/-- The rows `foo` and `a`, NUL, `foo` loaded under the C descriptor. -/
def docFooNul : editorConfig :=
  (loadLines 1 (initEditor 24 80 (some cSyntax)) [bytes "foo", [97, 0, 102, 111, 111]]).getD
    (initEditor 24 80 (some cSyntax))

/-! ## Lemmas: buffers -/

@[simp] theorem rd_nil (k : Nat) : rd [] k = 0 := by simp [rd]

theorem rd_eq_getElem {buf : List Nat} {k : Nat} (h : k < buf.length) : rd buf k = buf[k] := by
  simp [rd, List.getD_eq_getElem?_getD, List.getElem?_eq_getElem h]

theorem rd_of_le {buf : List Nat} {k : Nat} (h : buf.length ≤ k) : rd buf k = 0 := by
  simp [rd, List.getD_eq_getElem?_getD, List.getElem?_eq_none h]

theorem buf_ext {a b : List Nat} (hl : a.length = b.length)
    (h : ∀ k, k < a.length → rd a k = rd b k) : a = b := by
  apply List.ext_getElem hl
  intro k h1 h2
  have := h k h1
  rwa [rd_eq_getElem h1, rd_eq_getElem h2] at this

theorem rd_append (a b : List Nat) (k : Nat) :
    rd (a ++ b) k = if k < a.length then rd a k else rd b (k - a.length) := by
  unfold rd
  simp only [List.getD_eq_getElem?_getD, List.getElem?_append]
  split <;> rfl

theorem rd_take (a : List Nat) (n k : Nat) :
    rd (a.take n) k = if k < n then rd a k else 0 := by
  unfold rd
  simp only [List.getD_eq_getElem?_getD, List.getElem?_take]
  split <;> simp

theorem rd_drop (a : List Nat) (n k : Nat) : rd (a.drop n) k = rd a (n + k) := by
  unfold rd
  simp only [List.getD_eq_getElem?_getD, List.getElem?_drop]

theorem rd_replicate (n v k : Nat) :
    rd (List.replicate n v) k = if k < n then v else 0 := by
  unfold rd
  simp only [List.getD_eq_getElem?_getD, List.getElem?_replicate]
  split <;> simp

theorem rd_set (a : List Nat) (i v k : Nat) :
    rd (a.set i v) k = if k = i ∧ i < a.length then v else rd a k := by
  unfold rd
  simp only [List.getD_eq_getElem?_getD, List.getElem?_set]
  by_cases h : i = k
  · subst h
    by_cases h2 : i < a.length
    · simp [h2]
    · simp [h2, List.getElem?_eq_none (Nat.le_of_not_lt h2)]
  · have : ¬ k = i := fun e => h e.symm
    simp [h, this]

theorem rd_cons (x : Nat) (a : List Nat) (k : Nat) :
    rd (x :: a) k = if k = 0 then x else rd a (k - 1) := by
  cases k <;> simp [rd]

@[simp] theorem length_readN (buf : List Nat) (off n : Nat) : (readN buf off n).length = n := by
  simp [readN]

theorem rd_readN (buf : List Nat) (off n k : Nat) :
    rd (readN buf off n) k = if k < n then rd buf (off + k) else 0 := by
  unfold readN
  by_cases h : k < n
  · rw [rd_eq_getElem (by simpa using h)]
    simp [h]
  · rw [rd_of_le (by simpa using h)]
    simp [h]

@[simp] theorem length_writeAt (buf : List Nat) (off : Nat) (data : List Nat) :
    (writeAt buf off data).length = buf.length := by
  simp only [writeAt, List.length_append, List.length_take, List.length_drop]
  omega

theorem rd_writeAt (buf : List Nat) (off : Nat) (data : List Nat) (k : Nat) :
    rd (writeAt buf off data) k =
      if off ≤ k ∧ k < off + data.length ∧ k < buf.length then rd data (k - off)
      else rd buf k := by
  unfold writeAt
  simp only [rd_append, rd_take, rd_drop, List.length_append, List.length_take]
  by_cases hk : k < buf.length
  · split_ifs <;> first | rfl | omega | (congr 1; omega)
  · have h0 : rd buf k = 0 := rd_of_le (by omega)
    split_ifs <;> first | rfl | omega | (rw [h0]; apply rd_of_le; omega)

@[simp] theorem length_realloc (buf : List Nat) (n : Nat) : (realloc buf n).length = n := by
  simp [realloc]

/-! ## Lemmas: the scanning loop ends -/

@[simp] theorem setHl_i (st : ScanState) (k v : Nat) : (st.setHl k v).i = st.i := rfl
@[simp] theorem setHl_prev_sep (st : ScanState) (k v : Nat) :
    (st.setHl k v).prev_sep = st.prev_sep := rfl
@[simp] theorem memsetHl_i (st : ScanState) (k v n : Nat) : (st.memsetHl k v n).i = st.i := rfl
@[simp] theorem memsetHl_prev_sep (st : ScanState) (k v n : Nat) :
    (st.memsetHl k v n).prev_sep = st.prev_sep := rfl

/-- One pass of the scanning loop moves forward, or stays in place while
clearing `prev_sep` (a keyword of length zero). -/
theorem scanStep_progress {sy : editorSyntax} {render : List Nat} {size : Nat}
    {st st1 : ScanState} (h : scanStep sy render size st = .next st1) :
    st.i < st1.i ∨ (st1.i = st.i ∧ st.prev_sep = true ∧ st1.prev_sep = false) := by
  unfold scanStep at h
  simp only at h
  split_ifs at h
  all_goals try (injection h with h; subst h; simp)
  split at h
  · rename_i klen kw2 hk
    injection h with h
    subst h
    by_cases hp : st.prev_sep = true
    · by_cases h0 : klen = 0
      · right; simp [h0, hp]
      · left; simp; omega
    · simp_all
  · injection h with h; subst h; simp

theorem scanLoop_isSome (sy : editorSyntax) (render : List Nat) (size : Nat) :
    ∀ (fuel : Nat) (st : ScanState),
      2 * (render.length - st.i) + (if st.prev_sep then 1 else 0) < fuel →
      ∃ r, scanLoop sy render size fuel st = some r := by
  intro fuel
  induction fuel with
  | zero => intro st h; omega
  | succ n ih =>
    intro st h
    unfold scanLoop
    by_cases hlen : render.length ≤ st.i
    · rw [if_pos hlen]
      exact ⟨_, rfl⟩
    · rw [if_neg hlen]
      by_cases h0 : rd render st.i = 0
      · rw [if_pos h0]
        exact ⟨_, rfl⟩
      · rw [if_neg h0]
        have hi : st.i < render.length := by omega
        cases hs : scanStep sy render size st with
        | ret st1 => exact ⟨_, rfl⟩
        | next st1 =>
          simp only
          apply ih
          rcases scanStep_progress hs with hp | ⟨h1, h2, h3⟩
          · split_ifs at h ⊢ <;> omega
          · rw [h1, h3]
            rw [h2] at h
            simp at h ⊢
            omega

theorem hlScan_isSome (sy : editorSyntax) (render : List Nat) (rsize size : Nat) (ic : Bool) :
    ∃ r, hlScan sy render rsize size ic = some r := by
  unfold hlScan
  apply scanLoop_isSome
  simp only [if_true]
  omega

/-! ## Lemmas: rows -/

@[simp] theorem content_rerender (r : erow) : (rerender r).content = r.content := rfl
@[simp] theorem idx_rerender (r : erow) : (rerender r).idx = r.idx := rfl
@[simp] theorem size_rerender (r : erow) : (rerender r).size = r.size := rfl
@[simp] theorem content_incIdx (r : erow) : (incIdx r).content = r.content := rfl
@[simp] theorem idx_incIdx (r : erow) : (incIdx r).idx = r.idx + 1 := rfl

theorem lt_length_of_getElem? {α : Type} {l : List α} {j : Nat} {a : α} (h : l[j]? = some a) :
    j < l.length := by
  by_contra hc
  rw [List.getElem?_eq_none (by omega)] at h
  cases h

/-! ## Properties of the row store and of highlighting -/

/-- C1 (fails on the code): after `editorInsertRow(0, "a")`,
`editorInsertRow(1, "b")` and `editorDelRow(0)` the one remaining row, at
position 0, has index 2: `editorDelRow` increments the indices of the rows
behind the deleted one. -/
theorem C1_editorDelRow_index_not_position :
    ((loadLines 1 (initEditor 24 80 none) [bytes "a", bytes "b"]).map
      (fun E => (editorDelRow E 0).row.map (fun r => (r.idx, r.content)))) =
      some [(2, bytes "b")] := by
  decide

/-- C2 (fails on the code): under the C descriptor, load the rows `/*` and `x`
and insert `/` at column 0 of row 0.  Row 0 is now `//*`, a line comment, and
`editorUpdateSyntax` returns from inside its loop without looking at the next
row: row 1 keeps the block-comment tag, while loading `//*` and `x` from
scratch tags it plain.  Likewise a row `/*` inserted above a row `a` leaves `a`
plain. -/
theorem C2_incremental_differs_from_scratch :
    ((loadLines 2 (initEditor 24 80 (some cSyntax)) [bytes "/*", bytes "x"]).bind
        (fun E => editorRowInsertChar 2 E 0 0 47)).map view =
      some [(0, bytes "//*", [2, 2, 2]), (1, bytes "x", [3])] ∧
    (loadLines 2 (initEditor 24 80 (some cSyntax)) [bytes "//*", bytes "x"]).map view =
      some [(0, bytes "//*", [2, 2, 2]), (1, bytes "x", [0])] ∧
    ((editorInsertRow 2 (initEditor 24 80 (some cSyntax)) 0 (bytes "a") 1).bind
        (fun E => editorInsertRow 2 E 0 (bytes "/*") 2)).map view =
      some [(0, bytes "/*", [3, 3]), (1, bytes "a", [0])] ∧
    (loadLines 2 (initEditor 24 80 (some cSyntax)) [bytes "/*", bytes "a"]).map view =
      some [(0, bytes "/*", [3, 3]), (1, bytes "a", [3])] := by
  refine ⟨by decide, by decide, by decide, by decide⟩

/-- C3 (fails on the code): under the C descriptor the line tab, `//` does
not load: for the new row (size 3, `//` at rendered offset 7) the highlighting
pass calls `memset` with the length `size - i = 3 - 7` and leaves the
highlight array, so `editorInsertRow` has no result, whatever the fuel.  The
same holds of the line tab, `foo(); // ok` (size 13, `//` at rendered offset
14) behind the line `ab`.  With no descriptor active the line tab, `//` loads
and is serialized as the claim says, and so are the lines `ab`, `cd` under the
C descriptor. -/
theorem C3_load_overruns_highlight_array :
    (∀ fuel, loadLines fuel (initEditor 24 80 (some cSyntax)) [bytes "\t//"] = none) ∧
    (∀ fuel, loadLines fuel (initEditor 24 80 (some cSyntax))
      [bytes "ab", bytes "\tfoo(); // ok"] = none) ∧
    ((rowOf "\tfoo(); // ok").size, (rowOf "\tfoo(); // ok").rsize) = (13, 19) ∧
    (hlScan cSyntax (rowOf "\tfoo(); // ok").render (rowOf "\tfoo(); // ok").rsize
        (rowOf "\tfoo(); // ok").size false).map (fun p => (p.1.i, p.1.oob, p.2)) =
      some (14, true, true) ∧
    (loadLines 1 (initEditor 24 80 none) [bytes "\t//"]).map editorRowsToString =
      some (bytes "\t//\n" ++ [0], 4) ∧
    (loadLines 1 (initEditor 24 80 (some cSyntax)) [bytes "ab", bytes "cd"]).map
        editorRowsToString = some (bytes "ab\ncd\n" ++ [0], 6) := by
  refine ⟨fun fuel => ?_, fun fuel => ?_, by decide, by decide, by decide, by decide⟩
  · cases fuel <;> rfl
  · cases fuel <;> rfl

/-- C4 (fails on the code): `editorInsertRow(1, s, 3)` with `s` a tab and `//`,
on the document of the rows `ab` and `cd` under the C descriptor, has no
result, whatever the fuel: the highlighting pass on the new row leaves the
highlight array (`memset` of `size - i = 3 - 7` tags from offset 7 on).  With
the content `x` the call gives what the claim says: the rows `ab`, `x`, `cd`
with the indices 0, 1, 2, and `dirty` one higher. -/
theorem C4_editorInsertRow_overruns_highlight_array :
    view docAbCd = [(0, bytes "ab", [0, 0]), (1, bytes "cd", [0, 0])] ∧
    (∀ fuel, editorInsertRow fuel docAbCd 1 (bytes "\t//") 3 = none) ∧
    (hlScan cSyntax (rowOf "\t//").render (rowOf "\t//").rsize (rowOf "\t//").size false).map
        (fun p => (p.1.i, p.1.oob, p.2)) = some (7, true, true) ∧
    (editorInsertRow 3 docAbCd 1 (bytes "x") 1).map
        (fun E => (E.row.map (fun r => (r.idx, r.content)), E.numrows, E.dirty)) =
      some ([(0, bytes "ab"), (1, bytes "x"), (2, bytes "cd")], 3, docAbCd.dirty + 1) := by
  refine ⟨by decide, fun fuel => ?_, by decide, by decide⟩
  cases fuel <;> rfl

/-- C5: `editorDelRow(at)` with `at < N` on a document of `N` rows gives a
document of `N - 1` rows whose contents are the old contents with the one at
position `at` removed, and `dirty` grows by exactly one. -/
theorem C5_editorDelRow_removes (E : editorConfig) (at_ : Nat)
    (hn : E.numrows = E.row.length) (hat : at_ < E.numrows) :
    (editorDelRow E at_).numrows = E.numrows - 1 ∧
    (editorDelRow E at_).row.length = E.numrows - 1 ∧
    (editorDelRow E at_).row.map erow.content = (E.row.map erow.content).eraseIdx at_ ∧
    (editorDelRow E at_).dirty = E.dirty + 1 := by
  have htk : (E.row.drop (at_ + 1)).take (E.numrows - at_ - 1) = E.row.drop (at_ + 1) := by
    apply List.take_of_length_le
    simp [hn]; omega
  unfold editorDelRow
  rw [if_neg (by omega), htk]
  refine ⟨rfl, ?_, ?_, rfl⟩
  · simp; omega
  · simp [List.eraseIdx_eq_take_drop_succ, List.map_take, List.map_drop, Function.comp_def]

theorem C5_witness :
    (editorDelRow docAbCd 0).numrows = 1 ∧
    (editorDelRow docAbCd 0).row.map erow.content = [bytes "cd"] ∧
    (editorDelRow docAbCd 0).dirty = docAbCd.dirty + 1 :=
  have h := C5_editorDelRow_removes docAbCd 0 (by decide) (by decide)
  ⟨h.1.trans (by decide), h.2.2.1.trans (by decide), h.2.2.2⟩

/-- C6: out-of-range structural requests change nothing: `editorInsertRow` at a
position greater than `numrows` and `editorDelRow` at a position not below
`numrows` return the state they were given. -/
theorem C6_out_of_range_noop (fuel : Nat) (E : editorConfig) (at_ at2 : Nat) (s : List Nat)
    (len : Nat) (hins : E.numrows < at_) (hdel : E.numrows ≤ at2) :
    editorInsertRow fuel E at_ s len = some E ∧ editorDelRow E at2 = E := by
  constructor
  · unfold editorInsertRow
    rw [if_pos hins]
  · unfold editorDelRow
    rw [if_pos hdel]

theorem C6_witness :
    editorInsertRow 0 (initEditor 24 80 none) 1 (bytes "x") 1 = some (initEditor 24 80 none) ∧
    editorDelRow (initEditor 24 80 none) 0 = initEditor 24 80 none :=
  C6_out_of_range_noop 0 (initEditor 24 80 none) 1 0 (bytes "x") 1 (by decide) (by decide)

/-- C7 (fails on the code): `editorRowInsertChar(row, 2, '/')` on the row tab,
`/` (under the C descriptor) has no result, whatever the fuel: the row becomes
tab, `//` (size 3, `//` at rendered offset 7) and the highlighting pass leaves
its highlight array.  The same call at column 3 of row 0 of the rows `/**` and
`a`, tab, `//` closes the block comment; the pass goes on to row 1 and leaves
the array of that row.  Inserting `x` in place of `/` on the row tab, `/`
gives the content tab, `/`, `x`, as the claim says. -/
theorem C7_editorRowInsertChar_overruns_highlight_array :
    (docOf 80 ["\t/"]).row.map erow.content = [bytes "\t/"] ∧
    (∀ fuel, editorRowInsertChar fuel (docOf 80 ["\t/"]) 0 2 47 = none) ∧
    (hlScan cSyntax (rowOf "\t//").render (rowOf "\t//").rsize (rowOf "\t//").size false).map
        (fun p => (p.1.i, p.1.oob)) = some (7, true) ∧
    (docOf 80 ["/**", "a\t//"]).row.map erow.content = [bytes "/**", bytes "a\t//"] ∧
    (∀ fuel, editorRowInsertChar fuel (docOf 80 ["/**", "a\t//"]) 0 3 47 = none) ∧
    (editorRowInsertChar 2 (docOf 80 ["\t/"]) 0 2 120).map
        (fun E => E.row.map (fun r => (r.content, r.size))) = some [(bytes "\t/x", 3)] := by
  refine ⟨by decide, fun fuel => ?_, by decide, by decide, fun fuel => ?_, by decide⟩
  · cases fuel <;> rfl
  · cases fuel with
    | zero => rfl
    | succ n => cases n <;> rfl

/-- C8 (fails on the code): `editorRowDelChar(row, 2)` on the row tab, `/`,
`x`, `/` (under the C descriptor) has no result, whatever the fuel: the bytes
left are tab, `//`, the row is rendered with the size 4 it had (rendered size
10), and the highlighting pass calls `memset` from offset 7 on with the length
`size - i = 4 - 7`.  Deleting the tab at offset 0 gives the content `/x/`, and
an offset that is not below the size changes nothing, as the claim says. -/
theorem C8_editorRowDelChar_overruns_highlight_array :
    (docOf 80 ["\t/x/"]).row.map (fun r => (r.content, r.size)) = [(bytes "\t/x/", 4)] ∧
    (∀ fuel, editorRowDelChar fuel (docOf 80 ["\t/x/"]) 0 2 = none) ∧
    ((rerender { newRow 0 (bytes "\t//") 3 with size := 4 }).rsize,
      (hlScan cSyntax (rerender { newRow 0 (bytes "\t//") 3 with size := 4 }).render
        (rerender { newRow 0 (bytes "\t//") 3 with size := 4 }).rsize 4 false).map
          (fun p => (p.1.i, p.1.oob, p.2))) = (10, some (7, true, true)) ∧
    (editorRowDelChar 2 (docOf 80 ["\t/x/"]) 0 0).map
        (fun E => E.row.map (fun r => (r.content, r.size))) = some [(bytes "/x/", 3)] ∧
    editorRowDelChar 2 (docOf 80 ["\t/x/"]) 0 4 = some (docOf 80 ["\t/x/"]) := by
  refine ⟨by decide, fun fuel => ?_, by decide, by decide, by decide⟩
  cases fuel <;> rfl

/-- C9 (fails on the code): `editorRowDelChar(row, 0)` on the row `ab` leaves
the content `b` of size 1, but a rendered form of two bytes, `b` and the NUL
that `memmove` brought into `chars[1]`: `editorUpdateRow` ran before `size` was
decremented.  Rendering the row again gives the one byte `b`. -/
theorem C9_editorRowDelChar_renders_before_size_decrement :
    (editorRowDelChar 3 docAbCd 0 0).map (fun E => E.row.map (fun r => (r.content, r.size))) =
      some [(bytes "b", 1), (bytes "cd", 2)] ∧
    (editorRowDelChar 3 docAbCd 0 0).map (fun E => E.row.map (fun r => (r.rendered, r.rsize))) =
      some [([98, 0], 2), (bytes "cd", 2)] ∧
    (editorRowDelChar 3 docAbCd 0 0).map
        (fun E => E.row.map (fun r => ((rerender r).rendered, (rerender r).rsize))) =
      some [([98], 1), (bytes "cd", 2)] := by
  refine ⟨by decide, by decide, by decide⟩

/-- C10 (fails on the code): with the cursor at column 6 of the row `aaaaaa`,
tab, `//a` (under the C descriptor) `editorInsertNewline` has no result,
whatever the fuel: the new row is tab, `//a` of size 4 with `//` at rendered
offset 7, and the highlighting pass leaves its highlight array.  At column 3
the row is split into `aaa` and `aaa`, tab, `//a` and the cursor goes to row 1,
column 0, as the claim says. -/
theorem C10_editorInsertNewline_overruns_highlight_array :
    (docOf 80 ["aaaaaa\t//a"]).row.map erow.content = [bytes "aaaaaa\t//a"] ∧
    (∀ fuel, editorInsertNewline fuel { docOf 80 ["aaaaaa\t//a"] with cx := 6 } = none) ∧
    (hlScan cSyntax (rowOf "\t//a").render (rowOf "\t//a").rsize (rowOf "\t//a").size false).map
        (fun p => (p.1.i, p.1.oob, p.2)) = some (7, true, true) ∧
    (editorInsertNewline 3 { docOf 80 ["aaaaaa\t//a"] with cx := 3 }).map
        (fun E => (E.row.map erow.content, E.rowoff + E.cy, E.coloff + E.cx)) =
      some ([bytes "aaa", bytes "aaa\t//a"], 1, 0) := by
  refine ⟨by decide, fun fuel => ?_, by decide, by decide⟩
  cases fuel <;> rfl

/-! ## Lemmas: the input decoder -/

theorem and_bit_ne_zero (m i : Nat) : (m &&& 2 ^ i ≠ 0) ↔ m.testBit i = true := by
  rw [Nat.and_two_pow]
  cases m.testBit i <;> simp

/-- The digits of a parameter are accumulated one by one (first parameter). -/
theorem cli_getchar_loop_csi_digits (signedChar : Bool) (ds : List Nat)
    (hd : ∀ d ∈ ds, d < 10) (tail : List Nat) : ∀ (number1 number2 : Nat),
    cli_getchar_loop signedChar (ds.map (fun d => d + 48) ++ tail) .CLI_ES_CSI number1 number2 =
      cli_getchar_loop signedChar tail .CLI_ES_CSI
        (ds.foldl (fun a d => (a * 10 + d) % 0x10000) number1) number2 := by
  induction ds with
  | nil => intro n1 n2; rfl
  | cons d ds ih =>
    intro n1 n2
    have hd10 : d < 10 := hd d (List.mem_cons_self _ _)
    have hmod : (d + 48) % 256 = d + 48 := Nat.mod_eq_of_lt (by omega)
    have hdig : isdigit (d + 48) = true := by
      simp [isdigit]; omega
    simp only [List.map_cons, List.cons_append, List.foldl_cons]
    rw [cli_getchar_loop]
    simp only [hmod, hdig, if_true]
    rw [ih (fun x hx => hd x (List.mem_cons_of_mem _ hx))]
    simp [shiftDigit]

/-- Accumulating decimal digits in a `short` gives the number they write,
reduced to 16 bits. -/
theorem foldl_digits_eq (ds : List Nat) : ∀ (a : Nat), a < 0x10000 →
    ds.foldl (fun a d => (a * 10 + d) % 0x10000) a =
      (a * 10 ^ ds.length + Nat.ofDigits 10 ds.reverse) % 0x10000 := by
  induction ds with
  | nil => intro a ha; simp [Nat.mod_eq_of_lt ha]
  | cons d ds ih =>
    intro a _
    simp only [List.foldl_cons, List.length_cons, List.reverse_cons]
    rw [ih _ (Nat.mod_lt _ (by norm_num)), Nat.ofDigits_append]
    simp only [List.length_reverse, Nat.ofDigits_singleton]
    have h1 : ((a * 10 + d) % 0x10000 * 10 ^ ds.length + Nat.ofDigits 10 ds.reverse) ≡
        ((a * 10 + d) * 10 ^ ds.length + Nat.ofDigits 10 ds.reverse) [MOD 0x10000] :=
      Nat.ModEq.add_right _ (Nat.ModEq.mul_right _ (Nat.mod_modEq _ _))
    rw [Nat.ModEq] at h1
    rw [h1]
    congr 1
    ring

theorem digits_value (ds : List Nat) (h : Nat.ofDigits 10 ds.reverse < 0x8000) :
    ds.foldl (fun a d => (a * 10 + d) % 0x10000) 0 = Nat.ofDigits 10 ds.reverse := by
  rw [foldl_digits_eq ds 0 (by norm_num)]
  simp only [Nat.zero_mul, Nat.zero_add]
  exact Nat.mod_eq_of_lt (by omega)

/-- After `ESC [`, a run of digits and a letter: the letter is translated with
the number the digits write as its modifiers. -/
theorem cli_getchar_csi_letter (signedChar : Bool) (ds : List Nat) (hd : ∀ d ∈ ds, d < 10)
    (hv : Nat.ofDigits 10 ds.reverse < 0x8000) (L : Nat) (hL : isalpha L = true)
    (rest : List Nat) :
    cli_getchar signedChar ([27, 91] ++ ds.map (fun d => d + 48) ++ L :: rest) =
      some (cli_translate_alpha (Nat.ofDigits 10 ds.reverse) L, rest) := by
  have hL256 : L % 256 = L := by
    apply Nat.mod_eq_of_lt
    simp [isalpha] at hL
    omega
  have hLd : isdigit L = false := by
    simp [isalpha] at hL
    simp [isdigit]
    omega
  unfold cli_getchar
  simp only [List.cons_append, List.nil_append, List.append_assoc]
  rw [cli_getchar_loop]
  simp only [show (27 % 256 = CHAR_ESC) from rfl, if_true]
  rw [cli_getchar_loop]
  simp only [show (91 % 256 = 91) from rfl, if_true]
  rw [cli_getchar_loop_csi_digits signedChar ds hd, digits_value ds hv, cli_getchar_loop]
  simp only [hL256, hLd, hL, if_true]
  simp

/-- After `ESC [`, a run of digits and `~`: the number the digits write is
translated as a numeric code without modifiers. -/
theorem cli_getchar_csi_tilde (signedChar : Bool) (ds : List Nat) (hd : ∀ d ∈ ds, d < 10)
    (hv : Nat.ofDigits 10 ds.reverse < 0x8000) (rest : List Nat) :
    cli_getchar signedChar ([27, 91] ++ ds.map (fun d => d + 48) ++ 126 :: rest) =
      some (cli_translate_numeric 0 (Nat.ofDigits 10 ds.reverse), rest) := by
  unfold cli_getchar
  simp only [List.cons_append, List.nil_append, List.append_assoc]
  rw [cli_getchar_loop]
  simp only [show (27 % 256 = CHAR_ESC) from rfl, if_true]
  rw [cli_getchar_loop]
  simp only [show (91 % 256 = 91) from rfl, if_true]
  rw [cli_getchar_loop_csi_digits signedChar ds hd, digits_value ds hv, cli_getchar_loop]
  simp [isdigit, isalpha]

/-! ## Lemmas: tab expansion -/

theorem tabPad_eq : ∀ (n : Nat) (out : List Nat), (8 - (out.length + 1) % 8) % 8 ≤ n →
    tabPad n out = out ++ List.replicate ((8 - (out.length + 1) % 8) % 8) 32 := by
  intro n
  induction n with
  | zero =>
    intro out h
    have h0 : (8 - (out.length + 1) % 8) % 8 = 0 := by omega
    simp [tabPad, h0]
  | succ n ih =>
    intro out h
    simp only [tabPad]
    split
    · rename_i hne
      rw [ih (out ++ [32]) (by simp only [List.length_append, List.length_singleton]; omega)]
      have hk : (8 - (out.length + 1) % 8) % 8 =
          (8 - ((out ++ [32]).length + 1) % 8) % 8 + 1 := by
        simp only [List.length_append, List.length_singleton]; omega
      rw [hk, List.replicate_succ, List.append_assoc]
      rfl
    · rename_i heq
      have h0 : (8 - (out.length + 1) % 8) % 8 = 0 := by omega
      simp [h0]

theorem renderBytes_succ (chars : List Nat) (j : Nat) :
    renderBytes chars (j + 1) =
      (if rd chars j = TAB then tabPad 8 (renderBytes chars j ++ [32])
       else renderBytes chars j ++ [rd chars j]) := by
  unfold renderBytes
  rw [List.range_succ, List.foldl_append]
  rfl

/-- The rendering of the first `j` bytes is a prefix of the rendering of more
bytes. -/
theorem renderBytes_prefix (chars : List Nat) (j : Nat) : ∀ (k : Nat),
    ∃ tail, renderBytes chars (j + k) = renderBytes chars j ++ tail := by
  intro k
  induction k with
  | zero => exact ⟨[], by simp⟩
  | succ k ih =>
    obtain ⟨tail, ht⟩ := ih
    rw [← Nat.add_assoc, renderBytes_succ, ht]
    split
    · rw [tabPad_eq 8 _ (by omega), List.append_assoc, List.append_assoc]
      exact ⟨_, rfl⟩
    · rw [List.append_assoc]
      exact ⟨_, rfl⟩

theorem rerender_rendered (row : erow) :
    (rerender row).rendered = renderBytes row.chars row.size := by
  simp [rerender, erow.rendered]

theorem renderBytes_tab (chars : List Nat) (j : Nat) (h : rd chars j = TAB) :
    renderBytes chars (j + 1) =
      renderBytes chars j ++
        List.replicate (8 - ((renderBytes chars j).length + 1) % 8) 32 := by
  rw [renderBytes_succ, if_pos h, tabPad_eq 8 _ (by omega)]
  simp only [List.length_append, List.length_singleton, List.append_assoc]
  congr 1
  have hk : 8 - ((renderBytes chars j).length + 1) % 8 =
      (8 - ((renderBytes chars j).length + 1 + 1) % 8) % 8 + 1 := by omega
  rw [hk, List.replicate_succ]
  rfl

/-! ## Lemmas: lists of rows -/

theorem set_self_of_getElem? {rows : List erow} {pos : Nat} {r : erow}
    (h : rows[pos]? = some r) : rows.set pos r = rows := by
  apply List.ext_getElem?
  intro k
  rw [List.getElem?_set]
  split
  · rename_i hk
    subst hk
    rw [h]
    simp [lt_length_of_getElem? h]
  · rfl

/-! ## Properties of merging, tabs, input decoding and highlighting passes -/

/-- C11 (fails on the code), by two defects.  With the cursor at column 0 of
row 1 of the rows tab and `//` (under the C descriptor) `editorDelChar` has no
result, whatever the fuel: the merged row is tab, `//` and the highlighting
pass leaves its highlight array.  And in a window of 4 columns on the rows
`x`, `abcdefg`, `h`: a first `editorDelChar` at row 2, column 0 gives `cx = 9`,
`coloff = -2`; seven left arrows give `cx = 2`, `coloff = -2`, which is file
column 0 of row 1; there `editorDelChar` merges row 1 into row 0 and leaves the
cursor at file column `1 - 2 = -1`, not at the old length 1 of row 0.  On the
rows `ab`, `cd` in a window of 80 columns the merge is as the claim says. -/
theorem C11_editorDelChar_merge_fails :
    (docOf 80 ["\t", "//"]).row.map erow.content = [bytes "\t", bytes "//"] ∧
    (∀ fuel, editorDelChar fuel { docOf 80 ["\t", "//"] with cy := 1 } = none) ∧
    (hlScan cSyntax (rowOf "\t//").render (rowOf "\t//").rsize (rowOf "\t//").size false).map
        (fun p => (p.1.oob, p.2)) = some (true, true) ∧
    ((editorDelChar 4 { docOf 4 ["x", "abcdefg", "h"] with cy := 2 }).bind
        (moveCursorKeys (List.replicate 7 CLI_KEY_LEFT))).map
          (fun E => (E.row.map erow.content, E.rowoff + E.cy, E.cx, E.coloff)) =
      some ([bytes "x", bytes "abcdefgh"], 1, 2, -2) ∧
    (((editorDelChar 4 { docOf 4 ["x", "abcdefg", "h"] with cy := 2 }).bind
        (moveCursorKeys (List.replicate 7 CLI_KEY_LEFT))).bind (editorDelChar 4)).map
          (fun E => (E.row.map erow.content, E.rowoff + E.cy, E.coloff + E.cx)) =
      some ([bytes "xabcdefgh"], 0, -1) ∧
    (editorDelChar 4 { docOf 80 ["ab", "cd"] with cy := 1 }).map
        (fun E => (E.row.map erow.content, E.rowoff + E.cy, E.coloff + E.cx)) =
      some ([bytes "abcd"], 0, 2) := by
  refine ⟨by decide, fun fuel => ?_, by decide, by decide, by decide, by decide⟩
  cases fuel <;> rfl

/-- C13 (as stated, fails): `ESC [ 1 ; 5 C` does not decode to
`CLI_KEY_RIGHT | CLI_FLAG_CTRL`, whatever the signedness of `char`. -/
theorem C13_counterexample :
    cli_getchar true [27, 91, 49, 59, 53, 67] ≠ some (CLI_KEY_RIGHT ||| CLI_FLAG_CTRL, []) ∧
    cli_getchar false [27, 91, 49, 59, 53, 67] ≠ some (CLI_KEY_RIGHT ||| CLI_FLAG_CTRL, []) := by
  refine ⟨by decide, by decide⟩

/-- C13 (amended): `ESC [ 1 ; 5 C` uses up its six bytes and yields one key
event, the plain key `C` (`0x43`, no flag set): after the semicolon only digits
and `~` continue the sequence.  The right arrow with the ctrl flag is what
`ESC [ 5 C` yields. -/
theorem C13_semicolon_then_letter_is_plain (signedChar : Bool) (rest : List Nat) :
    cli_getchar signedChar ([27, 91, 49, 59, 53, 67] ++ rest) = some (67, rest) ∧
    cli_getchar signedChar ([27, 91, 53, 67] ++ rest) =
      some (CLI_KEY_RIGHT ||| CLI_FLAG_CTRL, rest) := by
  cases signedChar <;> exact ⟨rfl, rfl⟩

/-- C14: `ESC [ digits ~`, where the digits write a number `n` that a 16-bit
`short` holds, yields with no modifier flag: function key `n - 10` for
`11 ≤ n ≤ 15`, function key `n - 11` for `17 ≤ n ≤ 21`, the delete key for
`n = 3`, the MONITOR, CTX and HELP keys for `n = 30, 31, 32`, and the null key
event `0` for every other `n`. -/
theorem C14_numeric_codes (signedChar : Bool) (ds : List Nat) (rest : List Nat)
    (hd : ∀ d ∈ ds, d < 10) (hv : Nat.ofDigits 10 ds.reverse < 0x8000) :
    ∃ key, cli_getchar signedChar ([27, 91] ++ ds.map (fun d => d + 48) ++ 126 :: rest) =
        some (key, rest) ∧
      key = (if 11 ≤ Nat.ofDigits 10 ds.reverse ∧ Nat.ofDigits 10 ds.reverse ≤ 15 then
               CLI_FLAG_FUNC + (Nat.ofDigits 10 ds.reverse - 10)
             else if 17 ≤ Nat.ofDigits 10 ds.reverse ∧ Nat.ofDigits 10 ds.reverse ≤ 21 then
               CLI_FLAG_FUNC + (Nat.ofDigits 10 ds.reverse - 11)
             else if Nat.ofDigits 10 ds.reverse = 3 then CLI_KEY_DEL
             else if Nat.ofDigits 10 ds.reverse = 30 then CLI_KEY_MONITOR
             else if Nat.ofDigits 10 ds.reverse = 31 then CLI_KEY_CTX
             else if Nat.ofDigits 10 ds.reverse = 32 then CLI_KEY_HELP
             else 0) ∧
      key &&& (CLI_FLAG_CTRL ||| CLI_FLAG_SHIFT ||| CLI_FLAG_ALT ||| CLI_FLAG_OS) = 0 := by
  refine ⟨_, cli_getchar_csi_tilde signedChar ds hd hv rest, ?_, ?_⟩
  · generalize Nat.ofDigits 10 ds.reverse = n
    unfold cli_translate_numeric
    by_cases h1 : 11 ≤ n ∧ n ≤ 15
    · rw [if_pos h1, if_pos h1]
      obtain ⟨h11, h15⟩ := h1
      interval_cases n <;> decide
    · rw [if_neg h1, if_neg h1]
      by_cases h2 : 17 ≤ n ∧ n ≤ 21
      · rw [if_pos h2, if_pos h2]
        obtain ⟨h17, h21⟩ := h2
        interval_cases n <;> decide
      · rw [if_neg h2, if_neg h2]
        by_cases h3 : n = 3
        · subst h3; decide
        · by_cases h30 : n = 30
          · subst h30; decide
          · by_cases h31 : n = 31
            · subst h31; decide
            · by_cases h32 : n = 32
              · subst h32; decide
              · simp [h3, h30, h31, h32]
  · generalize Nat.ofDigits 10 ds.reverse = n
    unfold cli_translate_numeric
    by_cases h1 : 11 ≤ n ∧ n ≤ 15
    · rw [if_pos h1]
      obtain ⟨h11, h15⟩ := h1
      interval_cases n <;> decide
    · rw [if_neg h1]
      by_cases h2 : 17 ≤ n ∧ n ≤ 21
      · rw [if_pos h2]
        obtain ⟨h17, h21⟩ := h2
        interval_cases n <;> decide
      · rw [if_neg h2]
        split_ifs <;> decide

theorem C14_witness :
    ∃ key, cli_getchar true [27, 91, 49, 49, 126] = some (key, []) ∧ key = CLI_FLAG_FUNC + 1 := by
  obtain ⟨key, h1, h2, -⟩ := C14_numeric_codes true [1, 1] [] (by decide) (by decide)
  exact ⟨key, h1, h2.trans (by decide)⟩

/-- C15 (fails on the code): with a signed plain `char`, `ESC` followed by the
byte `0x80` yields the key event `0xFF80`, in which all the flag bits are set,
not the plain key `0x80`. -/
theorem C15_esc_then_high_byte_sets_flags :
    cli_getchar true [27, 0x80] = some (0xFF80, []) ∧ 0xFF80 &&& 0xFF00 = 0xFF00 := by
  refine ⟨by decide, by decide⟩

/-- C16 (fails on the code): with a signed plain `char`, the byte `0x80` read
in the base state yields the key event `0xFF80`, in which all the flag bits are
set: the `char` is sign-extended when it is returned as a `short`. -/
theorem C16_high_byte_sets_flags :
    cli_getchar true [0x80] = some (0xFF80, []) ∧ 0xFF80 &&& 0xFF00 = 0xFF00 := by
  refine ⟨by decide, by decide⟩

/-- C17 (as stated, fails): the parameter `32768` does not fit the `short` it is
accumulated in.  `ESC [ 3 2 7 6 8 C` yields the plain right arrow, although bit
0 of `32768 - 1` is set. -/
theorem C17_counterexample :
    cli_getchar true [27, 91, 51, 50, 55, 54, 56, 67] = some (CLI_KEY_RIGHT, []) ∧
    cli_getchar false [27, 91, 51, 50, 55, 54, 56, 67] = some (CLI_KEY_RIGHT, []) ∧
    CLI_KEY_RIGHT &&& CLI_FLAG_SHIFT = 0 ∧ (32768 - 1).testBit 0 = true := by
  refine ⟨by decide, by decide, by decide, by decide⟩

/-- C17 (amended): for every parameter `n` that a 16-bit `short` holds
(`n ≤ 32767`) and every letter `L` among `A`, `B`, `C`, `D`, `ESC [ digits(n) L`
yields the arrow key of `L` (up, down, right, left) with exactly the flags of
`m = n - 1` (`m = 0` for `n = 0`): shift iff bit 0 of `m`, alt iff bit 1, ctrl
iff bit 2, OS iff bit 3. -/
theorem C17_arrow_with_modifiers (signedChar : Bool) (ds : List Nat) (L : Nat)
    (rest : List Nat) (hd : ∀ d ∈ ds, d < 10) (hv : Nat.ofDigits 10 ds.reverse < 0x8000)
    (hL : L = 65 ∨ L = 66 ∨ L = 67 ∨ L = 68) :
    ∃ key, cli_getchar signedChar ([27, 91] ++ ds.map (fun d => d + 48) ++ L :: rest) =
        some (key, rest) ∧
      key &&& 0xF0FF = (if L = 65 then CLI_KEY_UP else if L = 66 then CLI_KEY_DOWN
                        else if L = 67 then CLI_KEY_RIGHT else CLI_KEY_LEFT) ∧
      (key &&& CLI_FLAG_SHIFT ≠ 0 ↔ (Nat.ofDigits 10 ds.reverse - 1).testBit 0 = true) ∧
      (key &&& CLI_FLAG_ALT ≠ 0 ↔ (Nat.ofDigits 10 ds.reverse - 1).testBit 1 = true) ∧
      (key &&& CLI_FLAG_CTRL ≠ 0 ↔ (Nat.ofDigits 10 ds.reverse - 1).testBit 2 = true) ∧
      (key &&& CLI_FLAG_OS ≠ 0 ↔ (Nat.ofDigits 10 ds.reverse - 1).testBit 3 = true) := by
  have hLa : isalpha L = true := by
    rcases hL with h | h | h | h <;> subst h <;> decide
  refine ⟨_, cli_getchar_csi_letter signedChar ds hd hv L hLa rest, ?_⟩
  generalize Nat.ofDigits 10 ds.reverse = n at hv
  have hm : (if 0 < n ∧ n < 0x8000 then n - 1 else n) = n - 1 := by
    split <;> omega
  have e0 := and_bit_ne_zero (n - 1) 0
  have e1 := and_bit_ne_zero (n - 1) 1
  have e2 := and_bit_ne_zero (n - 1) 2
  have e3 := and_bit_ne_zero (n - 1) 3
  simp only [pow_zero, pow_one, show (2 : Nat) ^ 2 = 4 from rfl,
    show (2 : Nat) ^ 3 = 8 from rfl] at e0 e1 e2 e3
  unfold cli_translate_alpha cli_translate_modifiers
  simp only [hm]
  rw [← e0, ← e1, ← e2, ← e3]
  by_cases t0 : (n - 1) &&& 1 ≠ 0 <;> by_cases t1 : (n - 1) &&& 2 ≠ 0 <;>
    by_cases t2 : (n - 1) &&& 4 ≠ 0 <;> by_cases t3 : (n - 1) &&& 8 ≠ 0 <;>
    simp only [t0, t1, t2, t3, if_true, if_false, not_true_eq_false, not_false_eq_true,
      ne_eq] <;>
    rcases hL with h | h | h | h <;> subst h <;> decide

theorem C17_witness :
    ∃ key, cli_getchar true [27, 91, 53, 67] = some (key, []) ∧
      key &&& 0xF0FF = CLI_KEY_RIGHT ∧ key &&& CLI_FLAG_CTRL ≠ 0 ∧ key &&& CLI_FLAG_SHIFT = 0 := by
  obtain ⟨key, h1, h2, h3, -, h5, -⟩ := C17_arrow_with_modifiers true [5] 67 []
    (by decide) (by decide) (by decide)
  refine ⟨key, h1, h2.trans (by decide), h5.mpr (by decide), ?_⟩
  by_contra hc
  exact absurd (h3.mp hc) (by decide)

/-- C19 (fails on the code): in `docCommentEdited` row 0 has become the line
comment `//*` while its stored flag is still 1 and row 1 exists.  The pass on
row 0 recomputes row 0 only: it returns at the line comment, row 0 is no longer
open (`editorRowHasOpenComment` gives 0) but keeps the stored flag 1, and row 1
is not visited.  This is the pass that `editorRowInsertChar` makes. -/
theorem C19_line_comment_stops_propagation :
    docCommentEdited.numrows = 2 ∧
    docCommentEdited.row.map erow.hl_oc = [1, 1] ∧
    (editorUpdateSyntaxT 2 docCommentEdited 0).map Prod.snd = some [0] ∧
    (editorUpdateSyntaxT 2 docCommentEdited 0).map
        (fun p => p.1.row.map (fun r => (r.hl_oc, editorRowHasOpenComment r))) =
      some [(1, 0), (1, 1)] ∧
    editorRowInsertChar 2 docComment 0 0 47 =
      (editorUpdateSyntax 2 docCommentEdited 0).map
        (fun E => { E with dirty := E.dirty + 1 }) := by
  refine ⟨by decide, by decide, by decide, by decide, by decide⟩

theorem strstrFrom_some {n : List Nat} : ∀ (h : List Nat) (o r : Nat),
    strstrFrom n h o = some r → o ≤ r ∧ r - o + n.length ≤ h.length := by
  intro h
  induction h with
  | nil =>
    intro o r hr
    unfold strstrFrom at hr
    split at hr
    · rename_i hp
      cases hr
      have := List.isPrefixOf_iff_prefix.mp hp
      have hn : n = [] := List.prefix_nil.mp this
      subst hn
      simp
    · cases hr
  | cons c t ih =>
    intro o r hr
    unfold strstrFrom at hr
    split at hr
    · rename_i hp
      cases hr
      have := (List.isPrefixOf_iff_prefix.mp hp).length_le
      simp only [Nat.sub_self, Nat.zero_add]
      exact ⟨Nat.le_refl _, this⟩
    · obtain ⟨h1, h2⟩ := ih (o + 1) r hr
      refine ⟨by omega, ?_⟩
      simp only [List.length_cons]
      omega

theorem strstrFrom_isSome (n : List Nat) : ∀ (h : List Nat) (o : Nat),
    (strstrFrom n h o).isSome = true ↔ n <:+: h := by
  intro h
  induction h with
  | nil =>
    intro o
    unfold strstrFrom
    split
    · rename_i hp
      have := List.isPrefixOf_iff_prefix.mp hp
      simp [this.isInfix]
    · rename_i hp
      simp only [Option.isSome_none, Bool.false_eq_true, false_iff]
      intro hi
      apply hp
      have hn : n = [] := List.infix_nil.mp hi
      subst hn
      rfl
  | cons c t ih =>
    intro o
    unfold strstrFrom
    split
    · rename_i hp
      have := List.isPrefixOf_iff_prefix.mp hp
      simp [this.isInfix]
    · rename_i hp
      rw [ih (o + 1), List.infix_cons_iff]
      constructor
      · intro h; exact Or.inr h
      · rintro (h | h)
        · exact absurd (List.isPrefixOf_iff_prefix.mpr h) hp
        · exact h

theorem cstr_take : ∀ (buf : List Nat) (n : Nat), (∀ c ∈ buf.take n, c ≠ 0) →
    rd buf n = 0 → cstr buf = buf.take n := by
  intro buf
  induction buf with
  | nil => intro n _ _; simp [cstr]
  | cons c t ih =>
    intro n h0 hn
    cases n with
    | zero =>
      rw [rd_cons, if_pos rfl] at hn
      subst hn
      simp [cstr]
    | succ n =>
      rw [rd_cons, if_neg (by omega)] at hn
      have hc : c ≠ 0 := h0 c (by simp)
      have ht : ∀ x ∈ t.take n, x ≠ 0 := fun x hx => h0 x (by simp [hx])
      have := ih n ht (by simpa using hn)
      unfold cstr at this ⊢
      simp [List.takeWhile_cons, hc, this]

theorem cstr_length_le : ∀ (buf : List Nat) (n : Nat), rd buf n = 0 →
    (cstr buf).length ≤ n := by
  intro buf
  induction buf with
  | nil => intro n _; simp [cstr]
  | cons c t ih =>
    intro n hn
    cases n with
    | zero =>
      rw [rd_cons, if_pos rfl] at hn
      subst hn
      simp [cstr]
    | succ n =>
      rw [rd_cons, if_neg (by omega)] at hn
      have := ih n (by simpa using hn)
      unfold cstr at this ⊢
      rw [List.takeWhile_cons]
      split
      · simp only [List.length_cons]; omega
      · simp

theorem cstr_of_ne_zero (q : List Nat) (h : ∀ c ∈ q, c ≠ 0) : cstr q = q := by
  unfold cstr
  rw [List.takeWhile_eq_self_iff]
  intro c hc
  simpa using h c hc

/-- A match of `strstr` lies within the rendered bytes of the row. -/
theorem strstr_fits {render query : List Nat} {rsize o : Nat} (ht : rd render rsize = 0)
    (hq : ∀ c ∈ query, c ≠ 0) (h : strstr render query = some o) :
    o + query.length ≤ rsize := by
  unfold strstr at h
  rw [cstr_of_ne_zero query hq] at h
  have := strstrFrom_some _ _ _ h
  have := cstr_length_le render rsize ht
  omega

/-- On a row of text, `strstr` finds a match exactly when the rendered form
contains the query. -/
theorem strstr_isSome (row : erow) (query : List Nat) (h0 : ∀ c ∈ row.rendered, c ≠ 0)
    (ht : rd row.render row.rsize = 0) (hq : ∀ c ∈ query, c ≠ 0) :
    (strstr row.render query).isSome = true ↔ query <:+: row.rendered := by
  unfold strstr
  rw [cstr_of_ne_zero query hq, cstr_take row.render row.rsize h0 ht, strstrFrom_isSome]
  rfl

theorem restore_hl (hl h1 : List Nat) (n : Nat) (hn : hl.length = n) (h1n : h1.length = hl.length) :
    memcpy h1 0 (readN hl 0 n) n = hl := by
  unfold memcpy
  apply buf_ext
  · simp [h1n]
  · intro k hk
    simp only [length_writeAt] at hk
    rw [rd_writeAt, rd_readN, rd_readN]
    simp only [length_readN, Nat.zero_le, true_and, Nat.zero_add, Nat.sub_zero]
    rw [if_pos ⟨by omega, hk⟩, if_pos (by omega), if_pos (by omega)]

/-! ## Lemmas: the search loop of `editorFind` -/

/-- The scan loop of `editorFind` returns, and a match it reports is a match of
`strstr` in a row of the document. -/
theorem findScan_some (E : editorConfig) (q : List Nat) (fn : Int)
    (hn : E.numrows = E.row.length) : ∀ (n : Nat) (cur : Int) (seen : List Nat),
    n ≤ E.numrows → -1 ≤ cur → cur < (E.numrows : Int) →
    (fn = 1 ∨ (fn = -1 ∧ 0 ≤ cur)) →
    ∃ m seen1, findScan E q fn n cur seen = some (m, seen1) ∧
      ∀ c o, m = some (c, o) →
        ∃ row, E.row[c]? = some row ∧ strstr row.render q = some o := by
  intro n
  induction n with
  | zero =>
    intro cur seen _ _ _ _
    exact ⟨none, seen, rfl, fun c o h => by cases h⟩
  | succ n ih =>
    intro cur seen hle hlo hhi hdir
    unfold findScan
    simp only
    have hc2 : 0 ≤ (if cur + fn = -1 then (E.numrows : Int) - 1
              else if cur + fn = (E.numrows : Int) then 0 else cur + fn) ∧
        (if cur + fn = -1 then (E.numrows : Int) - 1
              else if cur + fn = (E.numrows : Int) then 0 else cur + fn) < (E.numrows : Int) := by
      rcases hdir with h | ⟨h, h0⟩ <;> subst h <;> split_ifs <;> omega
    generalize (if cur + fn = -1 then (E.numrows : Int) - 1
              else if cur + fn = (E.numrows : Int) then 0 else cur + fn) = c2 at hc2
    obtain ⟨k, rfl⟩ : ∃ k : Nat, c2 = (k : Int) := ⟨c2.toNat, by omega⟩
    rw [if_neg (by omega)]
    simp only [Int.toNat_ofNat]
    have hk : k < E.row.length := by omega
    rw [List.getElem?_eq_getElem hk]
    simp only
    cases hs : strstr (E.row[k]).render q with
    | some off =>
      refine ⟨_, _, rfl, ?_⟩
      intro c o h
      cases h
      exact ⟨E.row[k], List.getElem?_eq_getElem hk, hs⟩
    | none =>
      exact ih (k : Int) _ (by omega) (by omega) hc2.2
        (by rcases hdir with h | ⟨h, h0⟩
            · exact Or.inl h
            · exact Or.inr ⟨h, by omega⟩)

theorem FIND_RESTORE_HL_inv {E0 : editorConfig} {st : FindState} (h : FindInv E0 st)
    (hl : ∀ r ∈ E0.row, r.hl.length = r.rsize) :
    FIND_RESTORE_HL st = { st with E := { st.E with row := E0.row }, saved_hl := none } := by
  have hr := h.rows
  unfold FIND_RESTORE_HL
  cases hs : st.saved_hl with
  | none =>
    rw [hs] at hr
    dsimp only at hr ⊢
    rw [← hr, ← hs]
  | some saved =>
    rw [hs] at hr
    dsimp only at hr ⊢
    obtain ⟨l, row0, h1, hline, hrow0, hsaved, hlen, hrows⟩ := hr
    have hlt : l < E0.row.length := lt_length_of_getElem? hrow0
    have hmem : row0 ∈ E0.row := List.getElem?_mem hrow0
    have hrs := hl row0 hmem
    have key : updRow st.E.row st.saved_hl_line.toNat
        (fun r => { r with hl := memcpy r.hl 0 saved r.rsize }) = E0.row := by
      rw [hline, Int.toNat_ofNat, hrows]
      unfold updRow
      rw [List.getElem?_set, if_pos rfl, if_pos hlt]
      simp only [List.set_set]
      rw [hsaved, restore_hl row0.hl h1 row0.rsize hrs hlen]
      exact set_self_of_getElem? hrow0
    rw [key]

theorem findPlaceCursor_frame (E : editorConfig) (c o : Nat) :
    (findPlaceCursor E c o).row = E.row ∧ (findPlaceCursor E c o).numrows = E.numrows ∧
    (findPlaceCursor E c o).dirty = E.dirty ∧ (findPlaceCursor E c o).syn = E.syn ∧
    (findPlaceCursor E c o).screenrows = E.screenrows ∧
    (findPlaceCursor E c o).screencols = E.screencols := by
  unfold findPlaceCursor
  dsimp only
  split <;> exact ⟨rfl, rfl, rfl, rfl, rfl, rfl⟩

/-- Under the invariant of `editorFind`, a row of the current state is the row
of the entry state up to its highlight array. -/
theorem FindInv.row_of {E0 : editorConfig} {st : FindState} (h : FindInv E0 st) {c : Nat}
    {row : erow} (hrow : st.E.row[c]? = some row) :
    ∃ row0, E0.row[c]? = some row0 ∧ row0.render = row.render ∧ row0.rsize = row.rsize := by
  have hr := h.rows
  cases hs : st.saved_hl with
  | none =>
    rw [hs] at hr
    dsimp only at hr
    rw [hr] at hrow
    exact ⟨row, hrow, rfl, rfl⟩
  | some saved =>
    rw [hs] at hr
    dsimp only at hr
    obtain ⟨l, row0, h1, -, hrow0, -, -, hrows⟩ := hr
    rw [hrows, List.getElem?_set] at hrow
    by_cases hl : l = c
    · subst hl
      rw [if_pos rfl, if_pos (lt_length_of_getElem? hrow0)] at hrow
      cases hrow
      exact ⟨row0, hrow0, rfl, rfl⟩
    · rw [if_neg hl] at hrow
      exact ⟨row, hrow, rfl, rfl⟩

theorem FindInv.length_row {E0 : editorConfig} {st : FindState} (h : FindInv E0 st) :
    st.E.row.length = E0.row.length := by
  have hr := h.rows
  cases hs : st.saved_hl with
  | none =>
    rw [hs] at hr
    dsimp only at hr
    rw [hr]
  | some saved =>
    rw [hs] at hr
    dsimp only at hr
    obtain ⟨l, row0, h1, -, -, -, -, hrows⟩ := hr
    rw [hrows, List.length_set]

/-- Under the invariant of `editorFind`, every row but at most one is the row
of the entry state. -/
theorem FindInv.rows_but_one {E0 : editorConfig} {st : FindState} (h : FindInv E0 st) :
    ∃ l : Nat, ∀ j : Nat, j ≠ l → st.E.row[j]? = E0.row[j]? := by
  have hr := h.rows
  cases hs : st.saved_hl with
  | none =>
    rw [hs] at hr
    dsimp only at hr
    exact ⟨(0 : Nat), fun (j : Nat) _ => by rw [hr]⟩
  | some saved =>
    rw [hs] at hr
    dsimp only at hr
    obtain ⟨l, row0, h1, -, -, -, -, hrows⟩ := hr
    refine ⟨l, fun j hj => ?_⟩
    rw [hrows, List.getElem?_set, if_neg (fun e => hj e.symm)]

/-- The search of `editorFind` returns and keeps the invariant; `last_match`
becomes the row of the match the scan reports, and stays when it reports
none. -/
theorem findOccurrence_inv {E0 : editorConfig} (hready : findReady E0) {st : FindState}
    (h : FindInv E0 st)
    (hdir : st.find_next = 1 ∨ (st.find_next = -1 ∧ 0 ≤ st.last_match)) :
    ∃ st1 m seen, findOccurrence st = some st1 ∧ FindInv E0 st1 ∧ st1.find_next = 0 ∧
      st1.query = st.query ∧
      findScan st.E st.query st.find_next st.E.numrows st.last_match [] = some (m, seen) ∧
      st1.last_match = (match m with
                        | some p => (p.1 : Int)
                        | none => st.last_match) := by
  have hlen := h.length_row
  have hnum : st.E.numrows = st.E.row.length := by rw [h.numrows, hready.1, hlen]
  obtain ⟨m, seen1, hscan, hm⟩ := findScan_some st.E st.query st.find_next hnum st.E.numrows
    st.last_match [] (Nat.le_refl _) h.last_lo (by rw [h.numrows]; exact h.last_hi) hdir
  have hinv0 : FindInv E0 { st with find_next := 0 } :=
    ⟨h.numrows, h.dirty, h.syn, h.screenrows, h.screencols, h.cx, h.cy, h.coloff, h.rowoff,
      h.last_lo, h.last_hi, h.query, h.rows⟩
  have hres := FIND_RESTORE_HL_inv hinv0 (fun r hr => (hready.2 r hr).1)
  unfold findOccurrence
  rw [hscan]
  dsimp only
  rw [hres]
  cases m with
  | none =>
    exact ⟨_, none, seen1, rfl,
      ⟨h.numrows, h.dirty, h.syn, h.screenrows, h.screencols, h.cx, h.cy, h.coloff, h.rowoff,
        h.last_lo, h.last_hi, h.query, rfl⟩, rfl, rfl, rfl, rfl⟩
  | some p =>
    obtain ⟨c, o⟩ := p
    obtain ⟨row, hrow, hstr⟩ := hm c o rfl
    obtain ⟨row0, hrow0, hrender, hrsize⟩ := h.row_of hrow
    have hmem : row0 ∈ E0.row := List.getElem?_mem hrow0
    obtain ⟨hhl, hterm⟩ := hready.2 row0 hmem
    have hc : c < E0.row.length := lt_length_of_getElem? hrow0
    have hfit : o + st.query.length ≤ row0.rsize := by
      apply strstr_fits hterm h.query
      rw [hrender]; exact hstr
    have hlo : (-1 : Int) ≤ (c : Int) := by omega
    have hhi : (c : Int) < (E0.numrows : Int) := by rw [hready.1]; omega
    dsimp only
    rw [hrow0]
    dsimp only
    rw [if_neg (by omega)]
    by_cases hnull : row0.hl ≠ []
    · rw [if_pos hnull]
      refine ⟨_, some (c, o), seen1, rfl, ⟨?_, ?_, ?_, ?_, ?_, h.cx, h.cy, h.coloff, h.rowoff,
        hlo, hhi, h.query, ?_⟩, rfl, rfl, rfl, rfl⟩
      · dsimp only; rw [(findPlaceCursor_frame _ c o).2.1]; exact h.numrows
      · dsimp only; rw [(findPlaceCursor_frame _ c o).2.2.1]; exact h.dirty
      · dsimp only; rw [(findPlaceCursor_frame _ c o).2.2.2.1]; exact h.syn
      · dsimp only; rw [(findPlaceCursor_frame _ c o).2.2.2.2.1]; exact h.screenrows
      · dsimp only; rw [(findPlaceCursor_frame _ c o).2.2.2.2.2]; exact h.screencols
      · dsimp only
        refine ⟨c, row0, memset row0.hl o HL_MATCH st.query.length, rfl, hrow0, rfl, ?_, ?_⟩
        · simp [memset]
        · rw [(findPlaceCursor_frame _ c o).1]
    · rw [if_neg hnull]
      refine ⟨_, some (c, o), seen1, rfl, ⟨?_, ?_, ?_, ?_, ?_, h.cx, h.cy, h.coloff, h.rowoff,
        hlo, hhi, h.query, ?_⟩, rfl, rfl, rfl, rfl⟩
      · dsimp only; rw [(findPlaceCursor_frame _ c o).2.1]; exact h.numrows
      · dsimp only; rw [(findPlaceCursor_frame _ c o).2.2.1]; exact h.dirty
      · dsimp only; rw [(findPlaceCursor_frame _ c o).2.2.2.1]; exact h.syn
      · dsimp only; rw [(findPlaceCursor_frame _ c o).2.2.2.2.1]; exact h.screenrows
      · dsimp only; rw [(findPlaceCursor_frame _ c o).2.2.2.2.2]; exact h.screencols
      · dsimp only
        rw [(findPlaceCursor_frame _ c o).1]

theorem editorFindSearch_inv {E0 : editorConfig} (hready : findReady E0) {st : FindState}
    (h : FindInv E0 st)
    (hfn : st.find_next = 0 ∨ st.find_next = 1 ∨ st.find_next = -1) :
    ∃ st1, editorFindSearch st = some st1 ∧ FindInv E0 st1 ∧ st1.find_next = 0 ∧
      st1.query = st.query := by
  unfold editorFindSearch
  by_cases hlm : st.last_match = -1
  · rw [if_pos hlm]
    dsimp only
    rw [if_neg (by decide)]
    have hinv : FindInv E0 { st with find_next := 1 } :=
      ⟨h.numrows, h.dirty, h.syn, h.screenrows, h.screencols, h.cx, h.cy, h.coloff, h.rowoff,
        h.last_lo, h.last_hi, h.query, h.rows⟩
    obtain ⟨st1, m, seen, h1, h2, h3, h4, -, -⟩ := findOccurrence_inv hready hinv (Or.inl rfl)
    exact ⟨st1, h1, h2, h3, h4⟩
  · rw [if_neg hlm]
    dsimp only
    by_cases h0 : st.find_next = 0
    · rw [if_pos h0]
      exact ⟨st, rfl, h, h0, rfl⟩
    · rw [if_neg h0]
      have hlo := h.last_lo
      obtain ⟨st1, m, seen, h1, h2, h3, h4, -, -⟩ := findOccurrence_inv hready h
        (by rcases hfn with hf | hf | hf
            · exact absurd hf h0
            · exact Or.inl hf
            · exact Or.inr ⟨hf, by omega⟩)
      exact ⟨st1, h1, h2, h3, h4⟩

theorem isprint_ne_zero {c : Nat} (h : isprint c = true) : c ≠ 0 := by
  unfold isprint at h
  simp only [Bool.and_eq_true, decide_eq_true_eq] at h
  omega

/-- A key event other than `ESC` and `ENTER` keeps `editorFind` in its loop and
keeps the invariant. -/
theorem editorFindKey_inv {E0 : editorConfig} (hready : findReady E0) {st : FindState}
    (h : FindInv E0 st) (h0 : st.find_next = 0) (key : Nat)
    (hk : key % 0x10000 ≠ ESC ∧ key % 0x10000 ≠ ENTER) :
    ∃ st1, editorFindKey key st = some (.next st1) ∧ FindInv E0 st1 ∧ st1.find_next = 0 := by
  have hnum0 : (-1 : Int) < (E0.numrows : Int) := by omega
  unfold editorFindKey
  dsimp only
  by_cases hb : key % 0x10000 = BACKSPACE
  · rw [if_pos hb]
    have hinv : FindInv E0 { st with query := st.query.dropLast, last_match := -1 } :=
      ⟨h.numrows, h.dirty, h.syn, h.screenrows, h.screencols, h.cx, h.cy, h.coloff, h.rowoff,
        Int.le_refl _, hnum0, fun c hc => h.query c (List.mem_of_mem_dropLast hc), h.rows⟩
    obtain ⟨st1, h1, h2, h3, -⟩ := editorFindSearch_inv hready hinv (Or.inl h0)
    exact ⟨st1, by rw [h1]; rfl, h2, h3⟩
  · rw [if_neg hb, if_neg (by tauto)]
    by_cases hr : key % 0x10000 = CLI_KEY_RIGHT ∨ key % 0x10000 = CLI_KEY_DOWN
    · rw [if_pos hr]
      have hinv : FindInv E0 { st with find_next := 1 } :=
        ⟨h.numrows, h.dirty, h.syn, h.screenrows, h.screencols, h.cx, h.cy, h.coloff,
          h.rowoff, h.last_lo, h.last_hi, h.query, h.rows⟩
      obtain ⟨st1, h1, h2, h3, -⟩ := editorFindSearch_inv hready hinv (Or.inr (Or.inl rfl))
      exact ⟨st1, by rw [h1]; rfl, h2, h3⟩
    · rw [if_neg hr]
      by_cases hl : key % 0x10000 = CLI_KEY_LEFT ∨ key % 0x10000 = CLI_KEY_UP
      · rw [if_pos hl]
        have hinv : FindInv E0 { st with find_next := -1 } :=
          ⟨h.numrows, h.dirty, h.syn, h.screenrows, h.screencols, h.cx, h.cy, h.coloff,
            h.rowoff, h.last_lo, h.last_hi, h.query, h.rows⟩
        obtain ⟨st1, h1, h2, h3, -⟩ := editorFindSearch_inv hready hinv (Or.inr (Or.inr rfl))
        exact ⟨st1, by rw [h1]; rfl, h2, h3⟩
      · rw [if_neg hl]
        by_cases hp : isprint (key % 0x10000) = true
        · rw [if_pos hp]
          by_cases hq : st.query.length < KILO_QUERY_LEN
          · rw [if_pos hq]
            have hinv : FindInv E0
                { st with query := st.query ++ [key % 0x10000], last_match := -1 } :=
              ⟨h.numrows, h.dirty, h.syn, h.screenrows, h.screencols, h.cx, h.cy, h.coloff,
                h.rowoff, Int.le_refl _, hnum0,
                fun c hc => by
                  rcases List.mem_append.mp hc with hc | hc
                  · exact h.query c hc
                  · rw [List.mem_singleton.mp hc]; exact isprint_ne_zero hp,
                h.rows⟩
            obtain ⟨st1, h1, h2, h3, -⟩ := editorFindSearch_inv hready hinv (Or.inl h0)
            exact ⟨st1, by rw [h1]; rfl, h2, h3⟩
          · rw [if_neg hq]
            obtain ⟨st1, h1, h2, h3, -⟩ := editorFindSearch_inv hready h (Or.inl h0)
            exact ⟨st1, by rw [h1]; rfl, h2, h3⟩
        · rw [if_neg hp]
          obtain ⟨st1, h1, h2, h3, -⟩ := editorFindSearch_inv hready h (Or.inl h0)
          exact ⟨st1, by rw [h1]; rfl, h2, h3⟩

/-- On `ESC` and `ENTER` `editorFind` returns; the rows are those of the entry
state; on `ESC` so is the whole state, on `ENTER` the cursor stays. -/
theorem editorFindKey_exit {E0 : editorConfig} (hready : findReady E0) {st : FindState}
    (h : FindInv E0 st) (key : Nat)
    (hk : key % 0x10000 = ESC ∨ key % 0x10000 = ENTER) :
    ∃ E1, editorFindKey key st = some (.ret E1) ∧ E1.row = E0.row ∧ E1.dirty = E0.dirty ∧
      E1.numrows = E0.numrows ∧
      (key % 0x10000 = ESC → E1 = E0) ∧
      (key % 0x10000 = ENTER → E1.cx = st.E.cx ∧ E1.cy = st.E.cy ∧
        E1.coloff = st.E.coloff ∧ E1.rowoff = st.E.rowoff) := by
  unfold editorFindKey
  dsimp only
  have hb : ¬ key % 0x10000 = BACKSPACE := by
    rcases hk with hk | hk <;> rw [hk] <;> decide
  rw [if_neg hb, if_pos hk]
  by_cases he : key % 0x10000 = ESC
  · rw [if_pos he]
    have hinv : FindInv E0
        { st with E := { st.E with cx := st.saved_cx, cy := st.saved_cy,
                                   coloff := st.saved_coloff, rowoff := st.saved_rowoff } } :=
      ⟨h.numrows, h.dirty, h.syn, h.screenrows, h.screencols, h.cx, h.cy, h.coloff, h.rowoff,
        h.last_lo, h.last_hi, h.query, by
          have hr := h.rows
          cases hs : st.saved_hl with
          | none => rw [hs] at hr; exact hr
          | some saved => rw [hs] at hr; exact hr⟩
    rw [FIND_RESTORE_HL_inv hinv (fun r hr => (hready.2 r hr).1)]
    refine ⟨_, rfl, rfl, h.dirty, h.numrows, ?_, ?_⟩
    · intro _
      dsimp only
      rw [h.cx, h.cy, h.coloff, h.rowoff, h.numrows, h.dirty, h.syn, h.screenrows,
        h.screencols]
    · intro hent
      rw [he] at hent
      exact absurd hent (by decide)
  · rw [if_neg he]
    rw [FIND_RESTORE_HL_inv h (fun r hr => (hready.2 r hr).1)]
    exact ⟨_, rfl, rfl, h.dirty, h.numrows, fun e => absurd e he,
      fun _ => ⟨rfl, rfl, rfl, rfl⟩⟩

theorem findInit_inv (E : editorConfig) : FindInv E (findInit E) :=
  ⟨rfl, rfl, rfl, rfl, rfl, rfl, rfl, rfl, rfl, Int.le_refl _,
    (by show (-1 : Int) < (E.numrows : Int); omega), (fun c hc => by cases hc), rfl⟩

/-- Key events other than `ESC` and `ENTER` keep `editorFind` in its loop: it
then waits in a state that satisfies the invariant, and goes on from there. -/
theorem editorFindAfter_inv {E0 : editorConfig} (hready : findReady E0) :
    ∀ (ks : List Nat) (st : FindState), FindInv E0 st → st.find_next = 0 →
    (∀ x ∈ ks, x % 0x10000 ≠ ESC ∧ x % 0x10000 ≠ ENTER) →
    ∃ st1, editorFindAfter ks st = some st1 ∧ FindInv E0 st1 ∧ st1.find_next = 0 ∧
      ∀ tail, editorFindLoop (ks ++ tail) st = editorFindLoop tail st1 := by
  intro ks
  induction ks with
  | nil => intro st h h0 _; exact ⟨st, rfl, h, h0, fun tail => rfl⟩
  | cons k ks ih =>
    intro st h h0 hks
    obtain ⟨st1, h1, h2, h3⟩ := editorFindKey_inv hready h h0 k (hks k (by simp))
    obtain ⟨st2, g1, g2, g3, g4⟩ := ih st1 h2 h3 (fun x hx => hks x (by simp [hx]))
    refine ⟨st2, ?_, g2, g3, ?_⟩
    · unfold editorFindAfter
      rw [h1]
      exact g1
    · intro tail
      have hstep : editorFindLoop (k :: (ks ++ tail)) st = editorFindLoop (ks ++ tail) st1 := by
        simp only [editorFindLoop, h1]
      rw [List.cons_append, hstep]
      exact g4 tail

/-! ## Lemmas: the order of the forward scan -/

theorem cyclicFrom_succ (N n start : Nat) :
    (List.range (n + 1)).map (fun k => (start + k) % N) =
      (start % N) :: (List.range n).map (fun k => (start % N + 1 + k) % N) := by
  rw [List.range_succ_eq_map, List.map_cons, List.map_map]
  congr 1
  apply List.map_congr_left
  intro k _
  simp only [Function.comp]
  have h := Nat.ModEq.add_right (1 + k) (Nat.mod_modEq start N)
  unfold Nat.ModEq at h
  rw [show start + k.succ = start + (1 + k) by omega, ← h]
  congr 1
  omega

/-- The forward scan of `editorFind` from `last_match = start - 1` with `n`
passes left hands to `strstr` the rows `start`, `start + 1`, ... in cyclic
order, up to and with the first in which `strstr` finds the query, and reports
that row. -/
theorem findScan_forward (E : editorConfig) (q : List Nat) (hn : E.numrows = E.row.length) :
    ∀ (n start : Nat) (seen : List Nat), n ≤ E.numrows → start ≤ E.numrows →
    ∃ m seen1, findScan E q 1 n ((start : Int) - 1) seen = some (m, seen1) ∧
      m.map Prod.fst =
        ((List.range n).map (fun k => (start + k) % E.numrows)).find? (rowMatches E q) ∧
      seen1 = seen ++
        (((List.range n).map (fun k => (start + k) % E.numrows)).takeWhile
            (fun j => !rowMatches E q j) ++
          (((List.range n).map (fun k => (start + k) % E.numrows)).find?
            (rowMatches E q)).toList) := by
  intro n
  induction n with
  | zero =>
    intro start seen _ _
    exact ⟨none, seen, rfl, rfl, by simp⟩
  | succ n ih =>
    intro start seen hle hs
    have hpos : 0 < E.numrows := by omega
    have hc2 : (if (start : Int) - 1 + 1 = -1 then (E.numrows : Int) - 1
        else if (start : Int) - 1 + 1 = (E.numrows : Int) then 0 else (start : Int) - 1 + 1) =
        ((start % E.numrows : Nat) : Int) := by
      by_cases he : start = E.numrows
      · rw [if_neg (by omega), if_pos (by omega), he, Nat.mod_self]; rfl
      · rw [if_neg (by omega), if_neg (by omega), Nat.mod_eq_of_lt (by omega)]
        omega
    have hlt : start % E.numrows < E.row.length := by
      rw [← hn]; exact Nat.mod_lt _ hpos
    unfold findScan
    simp only [hc2]
    rw [if_neg (by omega)]
    simp only [Int.toNat_ofNat]
    rw [List.getElem?_eq_getElem hlt]
    simp only
    rw [cyclicFrom_succ]
    have hrm : rowMatches E q (start % E.numrows) =
        (strstr (E.row[start % E.numrows]).render q).isSome := by
      unfold rowMatches
      rw [List.getElem?_eq_getElem hlt]
    cases hstr : strstr (E.row[start % E.numrows]).render q with
    | some off =>
      rw [hstr] at hrm
      refine ⟨_, _, rfl, ?_, ?_⟩
      · simp [List.find?_cons, hrm]
      · simp [List.find?_cons, List.takeWhile_cons, hrm]
    | none =>
      rw [hstr] at hrm
      simp only [Option.isSome_none] at hrm
      have hnext := ih (start % E.numrows + 1) (seen ++ [start % E.numrows]) (by omega)
        (by have := Nat.mod_lt start hpos; omega)
      simp only [Nat.cast_add, Nat.cast_one, add_sub_cancel_right] at hnext
      obtain ⟨m, seen1, h1, h2, h3⟩ := hnext
      refine ⟨m, seen1, h1, ?_, ?_⟩
      · rw [h2]; simp [List.find?_cons, hrm]
      · rw [h3]; simp [List.find?_cons, List.takeWhile_cons, hrm]

/-- The cyclic order holds every row of the document once. -/
theorem cyclicFrom_perm (N start : Nat) : (cyclicFrom N start).Perm (List.range N) := by
  unfold cyclicFrom
  by_cases hN : N = 0
  · subst hN; simp
  have hpos : 0 < N := Nat.pos_of_ne_zero hN
  have hnd : ((List.range N).map (fun k => (start + k) % N)).Nodup := by
    apply List.Nodup.map_on _ (List.nodup_range N)
    intro x hx y hy hxy
    have hx1 := List.mem_range.mp hx
    have hy1 := List.mem_range.mp hy
    have h1 : Nat.ModEq N (start + x) (start + y) := hxy
    have h2 : Nat.ModEq N x y := Nat.ModEq.add_left_cancel' start h1
    unfold Nat.ModEq at h2
    rwa [Nat.mod_eq_of_lt hx1, Nat.mod_eq_of_lt hy1] at h2
  have hsub : (List.range N).map (fun k => (start + k) % N) ⊆ List.range N := by
    intro j hj
    obtain ⟨k, -, rfl⟩ := List.mem_map.mp hj
    exact List.mem_range.mpr (Nat.mod_lt _ hpos)
  exact (List.subperm_of_subset hnd hsub).perm_of_length_le (by simp)

/-- On a document of text, `strstr` finds the query in a row exactly when the
rendered form of the row contains it. -/
theorem rowMatches_eq_rowContains (E : editorConfig) (q : List Nat)
    (hterm : ∀ r ∈ E.row, rd r.render r.rsize = 0)
    (htext : ∀ r ∈ E.row, ∀ c ∈ r.rendered, c ≠ 0) (hq : ∀ c ∈ q, c ≠ 0) :
    rowMatches E q = rowContains E q := by
  funext j
  unfold rowMatches rowContains
  cases hrow : E.row[j]? with
  | none => rfl
  | some row =>
    have hmem := List.getElem?_mem hrow
    dsimp only
    rw [Bool.eq_iff_iff, strstr_isSome row q (htext row hmem) (hterm row hmem) hq]
    simp

/-- The scan of `editorFind` reads of the rows only their rendered buffers, so
it does on a state of the loop what it does on the entry state. -/
theorem FindInv.findScan_eq {E0 : editorConfig} {st : FindState} (h : FindInv E0 st)
    (q : List Nat) (fn : Int) : ∀ (n : Nat) (cur : Int) (seen : List Nat),
    findScan st.E q fn n cur seen = findScan E0 q fn n cur seen := by
  intro n
  induction n with
  | zero => intro cur seen; rfl
  | succ n ih =>
    intro cur seen
    unfold findScan
    dsimp only
    rw [h.numrows]
    generalize (if cur + fn = -1 then (E0.numrows : Int) - 1
      else if cur + fn = (E0.numrows : Int) then 0 else cur + fn) = c2
    by_cases hneg : c2 < 0
    · rw [if_pos hneg, if_pos hneg]
    · rw [if_neg hneg, if_neg hneg]
      cases hrow : st.E.row[c2.toNat]? with
      | none =>
        have : E0.row[c2.toNat]? = none := by
          rw [List.getElem?_eq_none_iff] at hrow ⊢
          rw [← h.length_row]; exact hrow
        rw [this]
      | some row =>
        obtain ⟨row0, hrow0, hrender, -⟩ := h.row_of hrow
        rw [hrow0]
        dsimp only
        rw [hrender]
        split
        · rfl
        · exact ih _ _

/-- The key `CLI_KEY_RIGHT` in a state of the loop of `editorFind` with a last
match starts the forward scan from that row. -/
theorem editorFindKey_right {E0 : editorConfig} (hready : findReady E0) {st : FindState}
    (h : FindInv E0 st) (m : Nat) (hm : st.last_match = (m : Int)) :
    ∃ st1 found seen, editorFindKey CLI_KEY_RIGHT st = some (.next st1) ∧
      findScan E0 st.query 1 E0.numrows (m : Int) [] = some (found, seen) ∧
      st1.last_match = (match found with
                        | some p => (p.1 : Int)
                        | none => (m : Int)) := by
  have hinv : FindInv E0 { st with find_next := 1 } :=
    ⟨h.numrows, h.dirty, h.syn, h.screenrows, h.screencols, h.cx, h.cy, h.coloff, h.rowoff,
      h.last_lo, h.last_hi, h.query, h.rows⟩
  obtain ⟨st1, found, seen, h1, -, -, -, h5, h6⟩ := findOccurrence_inv hready hinv (Or.inl rfl)
  dsimp only at h5 h6
  rw [hinv.findScan_eq, h.numrows, hm] at h5
  rw [hm] at h6
  refine ⟨st1, found, seen, ?_, h5, h6⟩
  unfold editorFindKey
  dsimp only
  rw [if_neg (by decide), if_neg (by decide), if_pos (by decide)]
  unfold editorFindSearch
  dsimp only
  have hne : ¬ st.last_match = -1 := by rw [hm]; omega
  rw [if_neg hne, if_neg (show ¬ (1 : Int) = 0 by decide), h1]
  rfl

/-! ## Lemmas: keyword tags -/

theorem findKeyword_sep (render : List Nat) (i : Nat) : ∀ (kws : List (List Nat))
    (klen : Nat) (kw2 : Bool), findKeyword render i kws = some (klen, kw2) →
    is_separator (rd render (i + klen)) = true := by
  intro kws
  induction kws with
  | nil => intro klen kw2 h; cases h
  | cons kw rest ih =>
    intro klen kw2 h
    unfold findKeyword at h
    dsimp only at h
    generalize (if (rd kw (kw.length - 1) == 124) = true then kw.length - 1 else kw.length) = kl
      at h
    split at h
    · rename_i hc
      injection h with h
      injection h with h1 h2
      rw [Bool.and_eq_true] at hc
      rw [← h1]
      exact hc.2
    · exact ih klen kw2 h

theorem kwOk_mono {render : List Nat} {L : Nat} {hl : List Nat} {i i1 : Nat}
    (h : kwOk render L hl i) (hi : i ≤ i1) : kwOk render L hl i1 :=
  ⟨h.1, fun k hk => ⟨by have := (h.2 k hk).1; omega, (h.2 k hk).2⟩⟩

/-- A tag behind a keyword tag that equals it is a keyword tag, so it lies
before the scan position. -/
theorem kwOk_next {render : List Nat} {L : Nat} {hl : List Nat} {i k : Nat}
    (h : kwOk render L hl i) (hk : isKeywordTag (rd hl k) = true)
    (h3 : rd hl (k + 1) = rd hl k) : k + 1 < i := by
  have := (h.2 (k + 1) (by rw [h3]; exact hk)).1
  exact this

theorem kwOk_set {render : List Nat} {L : Nat} (hl : List Nat) (i i1 j v : Nat)
    (h : kwOk render L hl i) (hj : i ≤ j) (hi : i ≤ i1) (hv : isKeywordTag v = false) :
    kwOk render L (hl.set j v) i1 := by
  refine ⟨by rw [List.length_set]; exact h.1, fun k hk => ?_⟩
  rw [rd_set] at hk
  split at hk
  · rw [hv] at hk; cases hk
  · rename_i hne
    obtain ⟨h1, h2⟩ := h.2 k hk
    refine ⟨by omega, fun hL => ?_⟩
    rcases h2 hL with h3 | h3
    · left
      have := kwOk_next h hk h3
      rw [rd_set, if_neg (by omega), rd_set, if_neg hne]
      exact h3
    · exact Or.inr h3

theorem rd_memset (hl : List Nat) (off v n k : Nat) :
    rd (memset hl off v n) k =
      if off ≤ k ∧ k < off + n ∧ k < hl.length then v else rd hl k := by
  unfold memset
  rw [rd_writeAt, List.length_replicate]
  split
  · rename_i hc
    rw [rd_replicate, if_pos (by omega)]
  · rfl

theorem kwOk_memset {render : List Nat} {L : Nat} {hl : List Nat} {i v klen : Nat}
    (h : kwOk render L hl i) (hs : is_separator (rd render (i + klen)) = true) :
    kwOk render L (memset hl i v klen) (i + klen) := by
  refine ⟨by simp [memset, h.1], fun k hk => ?_⟩
  rw [rd_memset] at hk
  split at hk
  · rename_i hc
    refine ⟨by omega, fun hL => ?_⟩
    by_cases hlast : k + 1 < i + klen
    · left
      rw [rd_memset, if_pos ⟨by omega, hlast, by rw [h.1]; exact hL⟩, rd_memset, if_pos hc]
    · right
      rw [show k + 1 = i + klen by omega]
      exact hs
  · rename_i hne
    obtain ⟨h1, h2⟩ := h.2 k hk
    refine ⟨by omega, fun hL => ?_⟩
    rcases h2 hL with h3 | h3
    · left
      have := kwOk_next h hk h3
      rw [rd_memset, if_neg (by omega), rd_memset, if_neg hne]
      exact h3
    · exact Or.inr h3

theorem kwOk_memset_plain {render : List Nat} {L : Nat} {hl : List Nat} {i v n k : Nat}
    (h : kwOk render L hl i) (hv : isKeywordTag v = false) (hL : k + 1 < L)
    (hk : isKeywordTag (rd (memset hl i v n) k) = true) :
    rd (memset hl i v n) (k + 1) = rd (memset hl i v n) k ∨
      is_separator (rd render (k + 1)) = true := by
  rw [rd_memset] at hk
  split at hk
  · rw [hv] at hk; cases hk
  · rename_i hne
    obtain ⟨h1, h2⟩ := h.2 k hk
    rcases h2 hL with h3 | h3
    · left
      have := kwOk_next h hk h3
      rw [rd_memset, if_neg (by omega), rd_memset, if_neg hne]
      exact h3
    · exact Or.inr h3

/-- One pass of the scanning loop keeps the keyword tags in order. -/
theorem scanStep_kwOk {sy : editorSyntax} {render : List Nat} {size L : Nat}
    {st st1 : ScanState} (h : scanStep sy render size st = .next st1)
    (hk : kwOk render L st.hl st.i) : kwOk render L st1.hl st1.i := by
  unfold scanStep at h
  simp only at h
  split_ifs at h
  all_goals try
    (injection h with h; subst h
     dsimp only [ScanState.setHl]
     first
     | exact kwOk_set _ st.i (st.i + 2) (st.i + 1) _
         (kwOk_set _ st.i st.i st.i _ hk (Nat.le_refl _) (Nat.le_refl _) (by decide))
         (Nat.le_succ _) (by omega) (by decide)
     | exact kwOk_set _ st.i (st.i + 1) st.i _ hk (Nat.le_refl _) (Nat.le_succ _) (by decide))
  · split at h
    · rename_i klen kw2 hkw
      injection h with h
      subst h
      have hs := findKeyword_sep render st.i sy.keywords klen kw2 hkw
      show kwOk render L (memset st.hl st.i (if kw2 = true then HL_KEYWORD2 else HL_KEYWORD1) klen)
        (st.i + klen)
      exact kwOk_memset hk hs
    · injection h with h; subst h
      exact kwOk_mono hk (Nat.le_succ _)
  · dsimp only at h
    injection h with h; subst h
    exact kwOk_mono hk (Nat.le_succ _)

theorem scanLoop_kwOk (sy : editorSyntax) (render : List Nat) (size L : Nat) :
    ∀ (fuel : Nat) (st st1 : ScanState) (b : Bool),
      scanLoop sy render size fuel st = some (st1, b) → kwOk render L st.hl st.i →
      st1.hl.length = L ∧
      ∀ k, k + 1 < L → isKeywordTag (rd st1.hl k) = true →
        rd st1.hl (k + 1) = rd st1.hl k ∨ is_separator (rd render (k + 1)) = true := by
  intro fuel
  induction fuel with
  | zero => intro st st1 b h _; cases h
  | succ n ih =>
    intro st st1 b h hk
    unfold scanLoop at h
    split at h
    · injection h with h; injection h with h1 h2
      subst h1
      exact ⟨hk.1, fun k hL hkw => (hk.2 k hkw).2 hL⟩
    · split at h
      · injection h with h; injection h with h1 h2
        subst h1
        exact ⟨hk.1, fun k hL hkw => (hk.2 k hkw).2 hL⟩
      · split at h
        · rename_i st2 hstep
          injection h with h; injection h with h1 h2
          subst h1
          unfold scanStep at hstep
          simp only at hstep
          split_ifs at hstep
          · injection hstep with hstep
            subst hstep
            refine ⟨by simp [ScanState.memsetHl, memset, hk.1], fun k hL hkw => ?_⟩
            exact kwOk_memset_plain hk (by decide) hL hkw
          · split at hstep <;> cases hstep
        · rename_i st2 hstep
          exact ih st2 st1 b h (scanStep_kwOk hstep hk)

/-- The scan of a row tags a keyword only where a separator byte follows it. -/
theorem hlScan_keywords (sy : editorSyntax) (render : List Nat) (rsize size : Nat) (ic : Bool) :
    ∃ r, hlScan sy render rsize size ic = some r ∧ r.1.hl.length = rsize ∧
      ∀ k, k + 1 < rsize → isKeywordTag (rd r.1.hl k) = true →
        rd r.1.hl (k + 1) = rd r.1.hl k ∨ is_separator (rd render (k + 1)) = true := by
  obtain ⟨⟨st1, b⟩, hr⟩ := hlScan_isSome sy render rsize size ic
  refine ⟨(st1, b), hr, ?_⟩
  unfold hlScan at hr
  apply scanLoop_kwOk sy render size rsize _ _ st1 b hr
  refine ⟨by simp, fun k hk => ?_⟩
  dsimp only at hk
  rw [rd_replicate] at hk
  split at hk <;> cases hk

theorem hlScan_kwEnds {sy : editorSyntax} {render : List Nat} {rsize size : Nat} {ic : Bool}
    {st : ScanState} {ret : Bool} (h : hlScan sy render rsize size ic = some (st, ret)) :
    kwEnds render rsize st.hl := by
  obtain ⟨r, hr, hlen, hprop⟩ := hlScan_keywords sy render rsize size ic
  rw [h] at hr
  cases hr
  refine ⟨hlen, fun k hk h1 h2 => ?_⟩
  rcases hprop k hk h1 with h3 | h3
  · exact absurd h3 h2
  · exact h3

theorem getElem?_set_some {rows : List erow} {pos j : Nat} {r r1 : erow}
    (h : (rows.set pos r)[j]? = some r1) :
    (j = pos ∧ r1 = r ∧ pos < rows.length) ∨ (j ≠ pos ∧ rows[j]? = some r1) := by
  rw [List.getElem?_set] at h
  split at h
  · rename_i hj
    split at h
    · rename_i hlt
      left
      exact ⟨hj.symm, (Option.some.inj h).symm, hlt⟩
    · cases h
  · rename_i hj
    right
    exact ⟨fun e => hj e.symm, h⟩

theorem getElem?_updRow_some {rows : List erow} {pos j : Nat} {f : erow → erow} {r1 : erow}
    (h : (updRow rows pos f)[j]? = some r1) :
    ∃ r2, rows[j]? = some r2 ∧ (r1 = r2 ∨ r1 = f r2) := by
  unfold updRow at h
  split at h
  · rename_i r hr
    rcases getElem?_set_some h with ⟨hj, h1, -⟩ | ⟨-, h1⟩
    · subst hj
      exact ⟨r, hr, Or.inr h1⟩
    · exact ⟨r1, h1, Or.inl rfl⟩
  · exact ⟨r1, h, Or.inl rfl⟩

/-- Whatever the indices of the rows are: when `editorUpdateSyntax` returns,
every row has the rendered form it had and either the tags it had or tags that
a scan left, and the row at `pos` has tags that a scan left. -/
theorem editorUpdateSyntaxT_kwEnds (sy : editorSyntax) : ∀ (fuel : Nat) (E : editorConfig)
    (pos : Nat) (E1 : editorConfig) (tr : List Nat),
    E.syn = some sy → editorUpdateSyntaxT fuel E pos = some (E1, tr) →
    (∀ (j : Nat) (r1 : erow), E1.row[j]? = some r1 → ∃ r0, E.row[j]? = some r0 ∧
        r1.render = r0.render ∧ r1.rsize = r0.rsize ∧
        (r1.hl = r0.hl ∨ kwEnds r1.render r1.rsize r1.hl)) ∧
    (∀ r1 : erow, E1.row[pos]? = some r1 → kwEnds r1.render r1.rsize r1.hl) := by
  intro fuel
  induction fuel with
  | zero => intro E pos E1 tr _ h; simp [editorUpdateSyntaxT] at h
  | succ n ih =>
    intro E pos E1 tr hsyn h
    unfold editorUpdateSyntaxT at h
    split at h
    · cases h
    · rename_i row hrow
      simp only [hsyn] at h
      split at h
      · cases h
      · rename_i st ret hscan
        have hk := hlScan_kwEnds hscan
        -- what holds after storing a row with the scanned tags at `pos`
        have key : ∀ (r : erow), r.render = row.render → r.rsize = row.rsize →
            r.hl = st.hl →
            (∀ (j : Nat) (r1 : erow), (E.row.set pos r)[j]? = some r1 →
              ∃ r0, E.row[j]? = some r0 ∧
              r1.render = r0.render ∧ r1.rsize = r0.rsize ∧
              (r1.hl = r0.hl ∨ kwEnds r1.render r1.rsize r1.hl)) ∧
            (∀ r1 : erow, (E.row.set pos r)[pos]? = some r1 →
              kwEnds r1.render r1.rsize r1.hl) := by
          intro r e1 e2 e3
          have hgood : kwEnds r.render r.rsize r.hl := by rw [e1, e2, e3]; exact hk
          refine ⟨fun j r1 h1 => ?_, fun r1 h1 => ?_⟩
          · rcases getElem?_set_some h1 with ⟨hj, h2, -⟩ | ⟨-, h2⟩
            · subst hj; subst h2
              exact ⟨row, hrow, e1, e2, Or.inr hgood⟩
            · exact ⟨r1, h2, rfl, rfl, Or.inl rfl⟩
          · rcases getElem?_set_some h1 with ⟨-, h2, -⟩ | ⟨hne, -⟩
            · subst h2; exact hgood
            · exact absurd rfl hne
        split at h
        · cases h
        · split at h
          · injection h with h; injection h with h1 h2
            subst h1
            exact key _ rfl rfl rfl
          · split at h
            · split at h
              · cases h
              · rename_i E2 tr2 hrec
                injection h with h; injection h with h1 h2
                subst h1
                obtain ⟨ih1, -⟩ := ih _ _ _ _ (by first | exact hsyn | rfl) hrec
                obtain ⟨k1, k2⟩ := key { row with hl := st.hl } rfl rfl rfl
                have all : ∀ (f : erow → erow),
                    (∀ r, (f r).render = r.render ∧ (f r).rsize = r.rsize ∧
                      (f r).hl = r.hl) →
                    ∀ (j : Nat) (r1 : erow), (updRow E2.row pos f)[j]? = some r1 →
                    ∃ r0, E.row[j]? = some r0 ∧ r1.render = r0.render ∧
                      r1.rsize = r0.rsize ∧
                      (r1.hl = r0.hl ∨ kwEnds r1.render r1.rsize r1.hl) ∧
                      (j = pos → kwEnds r1.render r1.rsize r1.hl) := by
                  intro f hf j r1 hj
                  obtain ⟨r2, hr2, hrel⟩ := getElem?_updRow_some hj
                  have e : r1.render = r2.render ∧ r1.rsize = r2.rsize ∧ r1.hl = r2.hl := by
                    rcases hrel with e | e
                    · subst e; exact ⟨rfl, rfl, rfl⟩
                    · subst e; exact hf r2
                  obtain ⟨r0', hr0', a1, a2, a3⟩ := ih1 j r2 hr2
                  obtain ⟨r0, hr0, b1, b2, b3⟩ := k1 j r0' hr0'
                  have hgood' : r2.hl = r0'.hl → kwEnds r0'.render r0'.rsize r0'.hl →
                      kwEnds r1.render r1.rsize r1.hl := by
                    intro x y
                    rw [e.1, e.2.1, e.2.2, a1, a2, x]; exact y
                  have hgood2 : kwEnds r2.render r2.rsize r2.hl →
                      kwEnds r1.render r1.rsize r1.hl := by
                    intro y
                    rw [e.1, e.2.1, e.2.2]; exact y
                  refine ⟨r0, hr0, by rw [e.1, a1, b1], by rw [e.2.1, a2, b2], ?_, ?_⟩
                  · rcases a3 with a3 | a3
                    · rcases b3 with b3 | b3
                      · left; rw [e.2.2, a3, b3]
                      · right; exact hgood' a3 b3
                    · right; exact hgood2 a3
                  · intro hjp
                    subst hjp
                    rcases a3 with a3 | a3
                    · exact hgood' a3 (k2 r0' hr0')
                    · exact hgood2 a3
                refine ⟨fun j r1 hj => ?_, fun r1 hj => ?_⟩
                · obtain ⟨r0, c1, c2, c3, c4, -⟩ :=
                    all _ (by intro r; exact ⟨rfl, rfl, rfl⟩) j r1 hj
                  exact ⟨r0, c1, c2, c3, c4⟩
                · obtain ⟨r0, -, -, -, -, c5⟩ :=
                    all _ (by intro r; exact ⟨rfl, rfl, rfl⟩) pos r1 hj
                  exact c5 rfl
            · injection h with h; injection h with h1 h2
              subst h1
              exact key _ rfl rfl rfl

/-! ## Properties of keyword tags, search and comment tags -/

/-- C21: with the C descriptor active, the scan of a row by
`editorUpdateSyntax` (`hlScan`) has a result on every rendered buffer, with one
tag per rendered byte in the highlight array, and wherever a keyword tag is
followed by a different tag (of no keyword class, or of the other one), the
rendered byte at that place is a separator (`kwEnds`): a span of tags of one
keyword class ends at a separator or at the end of the row.  This is said of
the tags inside the array, also where the result is that of a scan that left
the array (`oob` set, the defect of C27).  So in every document, whatever the
indices of its rows, whenever `editorUpdateSyntax` returns for a row, the row
has the rendered form it had and tags of that kind.  The row `intx` is tagged
plain on its four bytes, and in the row `int x` the three keyword tags end at
the blank. -/
theorem C21_keyword_then_separator :
    (∀ (render : List Nat) (rsize size : Nat) (in_comment : Bool),
      ∃ st ret, hlScan cSyntax render rsize size in_comment = some (st, ret) ∧
        st.hl.length = rsize ∧
        ∀ k, k + 1 < rsize → isKeywordTag (rd st.hl k) = true →
          rd st.hl (k + 1) ≠ rd st.hl k →
          is_separator (rd render (k + 1)) = true) ∧
    (∀ (fuel : Nat) (E : editorConfig) (pos : Nat) (E1 : editorConfig) (row row1 : erow),
      E.syn = some cSyntax → E.row[pos]? = some row →
      editorUpdateSyntax fuel E pos = some E1 → E1.row[pos]? = some row1 →
      row1.render = row.render ∧ row1.rsize = row.rsize ∧
        kwEnds row1.render row1.rsize row1.hl) ∧
    tags (docOf 80 ["intx"]) = [([HL_NORMAL, HL_NORMAL, HL_NORMAL, HL_NORMAL], 0)] ∧
    tags (docOf 80 ["int x"]) =
      [([HL_KEYWORD2, HL_KEYWORD2, HL_KEYWORD2, HL_NORMAL, HL_NORMAL], 0)] ∧
    is_separator 32 = true ∧ is_separator 120 = false := by
  refine ⟨fun render rsize size in_comment => ?_, fun fuel E pos E1 row row1 hsyn hrow h h1 => ?_,
    by decide, by decide, by decide, by decide⟩
  · obtain ⟨⟨st, ret⟩, hr⟩ := hlScan_isSome cSyntax render rsize size in_comment
    exact ⟨st, ret, hr, hlScan_kwEnds hr⟩
  · unfold editorUpdateSyntax at h
    cases hT : editorUpdateSyntaxT fuel E pos with
    | none => rw [hT] at h; cases h
    | some p =>
      obtain ⟨E2, tr⟩ := p
      rw [hT] at h
      cases h
      obtain ⟨a, b⟩ := editorUpdateSyntaxT_kwEnds cSyntax fuel E pos E2 tr hsyn hT
      obtain ⟨r0, hr0, e1, e2, -⟩ := a pos row1 h1
      rw [hrow] at hr0
      cases hr0
      exact ⟨e1, e2, b row1 h1⟩

/-- C22 (as stated, fails): under the C descriptor the three bytes of `int` in
the row `int x` are not tagged `HL_KEYWORD1`. -/
theorem C22_counterexample :
    tags (docOf 80 ["int x"]) ≠
      [([HL_KEYWORD1, HL_KEYWORD1, HL_KEYWORD1, HL_NORMAL, HL_NORMAL], 0)] := by
  decide

/-- C22 (amended): under the C descriptor, highlighting the row `int x` tags
the three bytes of `int` as `HL_KEYWORD2` (the list entry is `int|`, a C type)
and the two bytes behind it as plain; a keyword without the marker, as `if` in
`if x`, is tagged `HL_KEYWORD1`. -/
theorem C22_int_is_keyword2 :
    tags (docOf 80 ["int x"]) =
      [([HL_KEYWORD2, HL_KEYWORD2, HL_KEYWORD2, HL_NORMAL, HL_NORMAL], 0)] ∧
    tags (docOf 80 ["if x"]) = [([HL_KEYWORD1, HL_KEYWORD1, HL_NORMAL, HL_NORMAL], 0)] ∧
    (bytes "int|") ∈ cSyntax.keywords ∧ (bytes "int") ∉ cSyntax.keywords := by
  refine ⟨by decide, by decide, by decide, by decide⟩

/-- C23 (as stated, fails): in `docFooNul` row 0 is `foo` and row 1 is `a`, a
NUL byte, `foo`, and both rendered forms contain the query `foo`.  A forward
find-next step from the last match 0 hands row 1 and then row 0 to `strstr`,
which reads the rendered form of row 1 as a C string, up to the NUL byte, and
finds nothing in it: row 0 is selected, not row 1, the first row in the cyclic
order whose rendered form contains the query. -/
theorem C23_counterexample :
    findReady docFooNul ∧
    docFooNul.row.map erow.rendered = [bytes "foo", [97, 0, 102, 111, 111]] ∧
    cyclicFrom docFooNul.numrows (0 + 1) = [1, 0] ∧
    (cyclicFrom docFooNul.numrows (0 + 1)).find? (rowContains docFooNul (bytes "foo")) =
      some 1 ∧
    (findScan docFooNul (bytes "foo") 1 docFooNul.numrows 0 []).map
        (fun p => (p.1.map Prod.fst, p.2)) = some (some 0, [1, 0]) ∧
    (findScan docFooNul (bytes "foo") 1 docFooNul.numrows 0 []).map
        (fun p => p.1.map Prod.fst) ≠
      some ((cyclicFrom docFooNul.numrows (0 + 1)).find? (rowContains docFooNul (bytes "foo"))) ∧
    [bytes "foo", bytes "foo" ++ [CLI_KEY_RIGHT]].map
        (fun ks => (editorFindAfter ks (findInit docFooNul)).map FindState.last_match) =
      [some 0, some 0] := by
  refine ⟨by decide, by decide, by decide, by decide, by decide, by decide, by decide⟩

/-- C23: a forward find-next step from the last matched row `m` hands to
`strstr` the rows `m + 1`, `m + 2`, ..., wrapping to row 0, ..., `m`, which are
all the rows of the document, each once, up to and with the first whose
rendered form contains the query; that row becomes the last match, and the last
match stays when no row contains the query.  On the rows `foo`, `bar`, `foo`
with the query `foo` the matches of successive steps are rows 0, 2, 0, 2. -/
theorem C23_find_next_cyclic (E : editorConfig) (query : List Nat) (m : Nat)
    (hready : findReady E) (htext : ∀ r ∈ E.row, ∀ c ∈ r.rendered, c ≠ 0)
    (hq : ∀ c ∈ query, c ≠ 0) (hm : m < E.numrows) :
    (cyclicFrom E.numrows (m + 1)).Perm (List.range E.numrows) ∧
    (∃ found seen, findScan E query 1 E.numrows (m : Int) [] = some (found, seen) ∧
      found.map Prod.fst = (cyclicFrom E.numrows (m + 1)).find? (rowContains E query) ∧
      seen = (cyclicFrom E.numrows (m + 1)).takeWhile (fun j => !rowContains E query j) ++
        ((cyclicFrom E.numrows (m + 1)).find? (rowContains E query)).toList) ∧
    (∀ st, FindInv E st → st.query = query → st.last_match = (m : Int) →
      ∃ st1, editorFindKey CLI_KEY_RIGHT st = some (.next st1) ∧
        st1.last_match =
          (match (cyclicFrom E.numrows (m + 1)).find? (rowContains E query) with
           | some j => (j : Int)
           | none => (m : Int))) ∧
    [bytes "foo", bytes "foo" ++ [CLI_KEY_RIGHT], bytes "foo" ++ [CLI_KEY_RIGHT, CLI_KEY_RIGHT],
      bytes "foo" ++ [CLI_KEY_RIGHT, CLI_KEY_RIGHT, CLI_KEY_RIGHT]].map
        (fun ks => (editorFindAfter ks (findInit docFooBarFoo)).map FindState.last_match) =
      [some 0, some 2, some 0, some 2] := by
  have hterm : ∀ r ∈ E.row, rd r.render r.rsize = 0 := fun r hr => (hready.2 r hr).2
  have heq := rowMatches_eq_rowContains E query hterm htext hq
  obtain ⟨found, seen, h1, h2, h3⟩ := findScan_forward E query hready.1 E.numrows (m + 1) []
    (Nat.le_refl _) (by omega)
  simp only [Nat.cast_add, Nat.cast_one, add_sub_cancel_right, List.nil_append, heq] at h1 h2 h3
  refine ⟨cyclicFrom_perm _ _, ⟨found, seen, h1, h2, h3⟩, ?_, by decide⟩
  intro st hinv hquery hlast
  obtain ⟨st1, found1, seen1, g1, g2, g3⟩ := editorFindKey_right hready hinv m hlast
  rw [hquery, h1] at g2
  injection g2 with g2
  injection g2 with g2 g2s
  subst g2
  refine ⟨st1, g1, ?_⟩
  rw [g3]
  unfold cyclicFrom
  rw [← h2]
  cases found with
  | none => rfl
  | some p => rfl

theorem C23_witness :
    ∃ found seen, findScan docFooBarFoo (bytes "foo") 1 3 0 [] = some (found, seen) ∧
      found.map Prod.fst = some 2 ∧ seen = [1, 2] := by
  obtain ⟨-, ⟨found, seen, h1, h2, h3⟩, -, -⟩ := C23_find_next_cyclic docFooBarFoo
    (bytes "foo") 0 (by decide) (by decide) (by decide) (by decide)
  exact ⟨found, seen, h1, h2.trans (by decide), h3.trans (by decide)⟩

/-- C24: for key events of which the last is `ESC` or `ENTER` and no other is,
`editorFind` returns and every row has the highlight array it had at entry;
and whenever `editorFind` waits for a key in between, every row but at most one
is the row of the entry state and so carries no search-match tag. -/
theorem C24_search_overlay_undone (E : editorConfig) (pre suf : List Nat) (k : Nat)
    (rest : List Nat) (hready : findReady E) (hplain : ∀ r ∈ E.row, HL_MATCH ∉ r.hl)
    (hks : ∀ x ∈ pre ++ suf, x % 0x10000 ≠ ESC ∧ x % 0x10000 ≠ ENTER)
    (hk : k % 0x10000 = ESC ∨ k % 0x10000 = ENTER) :
    (∃ E1, editorFind (pre ++ suf ++ k :: rest) E = some (E1, rest) ∧
      E1.row.map erow.hl = E.row.map erow.hl) ∧
    (∃ st, editorFindAfter pre (findInit E) = some st ∧
      ∃ l : Nat, ∀ (j : Nat) (row : erow), j ≠ l → st.E.row[j]? = some row →
        E.row[j]? = some row ∧ HL_MATCH ∉ row.hl) := by
  constructor
  · obtain ⟨st1, -, h2, -, h4⟩ := editorFindAfter_inv hready (pre ++ suf) (findInit E)
      (findInit_inv E) rfl hks
    obtain ⟨E1, g1, g2, -⟩ := editorFindKey_exit hready h2 k hk
    refine ⟨E1, ?_, by rw [g2]⟩
    unfold editorFind
    rw [h4]
    simp only [editorFindLoop, g1]
  · obtain ⟨st, h1, h2, -, -⟩ := editorFindAfter_inv hready pre (findInit E)
      (findInit_inv E) rfl (fun x hx => hks x (List.mem_append_left _ hx))
    obtain ⟨l, hl⟩ := h2.rows_but_one
    refine ⟨st, h1, l, fun j row hj hrow => ?_⟩
    rw [hl j hj] at hrow
    exact ⟨hrow, hplain row (List.getElem?_mem hrow)⟩

theorem C24_witness :
    (∃ E1, editorFind (bytes "foo" ++ [CLI_KEY_RIGHT] ++ [] ++ ENTER :: []) docFooBarFoo =
        some (E1, []) ∧
      E1.row.map erow.hl = docFooBarFoo.row.map erow.hl) ∧
    (∃ st, editorFindAfter (bytes "foo" ++ [CLI_KEY_RIGHT]) (findInit docFooBarFoo) = some st ∧
      st.E.row.map erow.hl = [[0, 0, 0], [0, 0, 0], [8, 8, 8]]) := by
  obtain ⟨h1, st, h2, -⟩ := C24_search_overlay_undone docFooBarFoo
    (bytes "foo" ++ [CLI_KEY_RIGHT]) [] ENTER [] (by decide) (by decide) (by decide) (by decide)
  refine ⟨h1, st, h2, ?_⟩
  have e : editorFindAfter (bytes "foo" ++ [CLI_KEY_RIGHT]) (findInit docFooBarFoo) =
      some ((editorFindAfter (bytes "foo" ++ [CLI_KEY_RIGHT]) (findInit docFooBarFoo)).getD
        (findInit docFooBarFoo)) := by decide
  rw [e] at h2
  cases h2
  decide

/-- C25: when the search ends with `ESC` the cursor and the viewport offsets
are those of the entry state; when it ends with `ENTER` they are those of the
state in which `editorFind` waited for that key, as the last match set them; in
both cases the rows and the dirty counter are those of the entry state. -/
theorem C25_cursor_after_search (E : editorConfig) (ks : List Nat) (k : Nat) (rest : List Nat)
    (hready : findReady E)
    (hks : ∀ x ∈ ks, x % 0x10000 ≠ ESC ∧ x % 0x10000 ≠ ENTER)
    (hk : k % 0x10000 = ESC ∨ k % 0x10000 = ENTER) :
    ∃ E1 st, editorFind (ks ++ k :: rest) E = some (E1, rest) ∧
      editorFindAfter ks (findInit E) = some st ∧
      (k % 0x10000 = ESC →
        E1.cx = E.cx ∧ E1.cy = E.cy ∧ E1.coloff = E.coloff ∧ E1.rowoff = E.rowoff) ∧
      (k % 0x10000 = ENTER →
        E1.cx = st.E.cx ∧ E1.cy = st.E.cy ∧ E1.coloff = st.E.coloff ∧
          E1.rowoff = st.E.rowoff) ∧
      E1.row.map erow.content = E.row.map erow.content ∧ E1.row = E.row ∧
      E1.dirty = E.dirty := by
  obtain ⟨st1, h1, h2, -, h4⟩ := editorFindAfter_inv hready ks (findInit E)
    (findInit_inv E) rfl hks
  obtain ⟨E1, g1, g2, g3, -, g5, g6⟩ := editorFindKey_exit hready h2 k hk
  refine ⟨E1, st1, ?_, h1, ?_, g6, by rw [g2], g2, g3⟩
  · unfold editorFind
    rw [h4]
    simp only [editorFindLoop, g1]
  · intro he
    rw [g5 he]
    exact ⟨rfl, rfl, rfl, rfl⟩

theorem C25_witness :
    ∃ E1, editorFind (bytes "foo" ++ [CLI_KEY_RIGHT] ++ ESC :: []) docFooBarFoo =
        some (E1, []) ∧
      E1.cx = 0 ∧ E1.rowoff = 0 ∧ E1.row = docFooBarFoo.row := by
  obtain ⟨E1, st, h1, -, h3, -, -, h6, -⟩ := C25_cursor_after_search docFooBarFoo
    (bytes "foo" ++ [CLI_KEY_RIGHT]) ESC [] (by decide) (by decide) (by decide)
  obtain ⟨a, -, -, b⟩ := h3 (by decide)
  exact ⟨E1, h1, a.trans (by decide), b.trans (by decide), h6⟩

/-- C26 (fails on the code): in a window of 4 columns, on the row `abcdefg`,
the match of `e` at offset 4 leaves `cx = 4 = screencols` with `coloff = 0`, and
the match of `f` at offset 5 leaves `cx = 4 = screencols` with `coloff = 1`: the
cursor is not inside `0 .. screencols - 1` and the match starts one column
behind the window `coloff .. coloff + screencols - 1`.  A match at offset 3 is
placed inside the window. -/
theorem C26_match_right_of_window :
    (editorFindAfter (bytes "e") (findInit (docOf 4 ["abcdefg"]))).map
        (fun st => (st.last_match, st.E.cx, st.E.coloff, st.E.screencols)) =
      some (0, 4, 0, 4) ∧
    (editorFindAfter (bytes "f") (findInit (docOf 4 ["abcdefg"]))).map
        (fun st => (st.last_match, st.E.cx, st.E.coloff, st.E.screencols)) =
      some (0, 4, 1, 4) ∧
    (editorFindAfter (bytes "d") (findInit (docOf 4 ["abcdefg"]))).map
        (fun st => (st.last_match, st.E.cx, st.E.coloff, st.E.screencols)) =
      some (0, 3, 0, 4) ∧
    strstr (bytes "abcdefg" ++ [0]) (bytes "f") = some 5 := by
  refine ⟨by decide, by decide, by decide, by decide⟩

/-- C27 (fails on the code): on the row that holds a quote and a backslash
(rendered size 2) the scan writes `HL_STRING` through `row->hl[i+1]` at offset
2, past the two tags of the array; on the row that holds a tab and `//`
(size 3, rendered size 9) the token is found at rendered offset 7 and the
`memset` of `HL_COMMENT` gets the length `size - i = 3 - 7`, as a `size_t`
`4294967292`, from offset 7 on.  A block comment token at the end of a row is
tagged inside the array. -/
theorem C27_writes_past_the_array :
    (rowOf "\"\\").rsize = 2 ∧
    (hlScan cSyntax (rowOf "\"\\").render (rowOf "\"\\").rsize (rowOf "\"\\").size false).map
        (fun p => (p.1.oob, p.1.i, p.2)) = some (true, 3, false) ∧
    (rowOf "\t//").rsize = 9 ∧ (rowOf "\t//").size = 3 ∧
    skipSpaces (rowOf "\t//").render = 7 ∧
    subSizeT 3 7 = 4294967292 ∧
    (hlScan cSyntax (rowOf "\t//").render (rowOf "\t//").rsize (rowOf "\t//").size false).map
        (fun p => (p.1.oob, p.2)) = some (true, true) ∧
    (hlScan cSyntax (rowOf "a /*").render (rowOf "a /*").rsize (rowOf "a /*").size false).map
        (fun p => (p.1.oob, p.1.hl)) = some (false, [0, 0, 3, 3]) := by
  refine ⟨by decide, by decide, by decide, by decide, by decide, by decide, by decide,
    by decide⟩

/-- C28 (fails on the code): in `docEdited ["/**", "b", "a\t//"] 0 "/**/"` (3
rows, indices dense) the pass on row 0 finds the block comment closed and calls
itself on row 1, whose flag changes too, and from there on row 2 (`a`, tab,
`//`), where it calls `memset` with the length `size - i = 4 - 7` and leaves
the highlight array: the propagation does not run to its end and
`editorUpdateSyntax` has no result, whatever the fuel.  With a blank in place
of the tab the state is the one in which `editorRowInsertChar` makes this pass,
and the pass returns after recomputing the rows 0, 1, 2, each once. -/
theorem C28_propagation_overruns_highlight_array :
    dense (docEdited ["/**", "b", "a\t//"] 0 "/**/").row ∧
    (docEdited ["/**", "b", "a\t//"] 0 "/**/").numrows = 3 ∧
    (docEdited ["/**", "b", "a\t//"] 0 "/**/").row.map (fun r => (r.content, r.hl_oc)) =
      [(bytes "/**/", 1), (bytes "b", 1), (bytes "a\t//", 1)] ∧
    (∀ fuel, editorUpdateSyntaxT fuel (docEdited ["/**", "b", "a\t//"] 0 "/**/") 0 = none) ∧
    (∀ fuel, editorUpdateSyntax fuel (docEdited ["/**", "b", "a\t//"] 0 "/**/") 0 = none) ∧
    ((docEdited ["/**", "b", "a\t//"] 0 "/**/").row[2]?.bind
        (fun r => hlScan cSyntax r.render r.rsize r.size false)).map
          (fun p => (p.1.i, p.1.oob, p.2)) = some (7, true, true) ∧
    editorRowInsertChar 3 (docOf 80 ["/**", "b", "a //"]) 0 3 47 =
      (editorUpdateSyntax 3 (docEdited ["/**", "b", "a //"] 0 "/**/") 0).map
        (fun E => { E with dirty := E.dirty + 1 }) ∧
    (editorUpdateSyntaxT 3 (docEdited ["/**", "b", "a //"] 0 "/**/") 0).map Prod.snd =
      some [0, 1, 2] := by
  refine ⟨by decide, by decide, by decide, fun fuel => ?_, fun fuel => ?_, by decide,
    rfl, by decide⟩
  · cases fuel with
    | zero => rfl
    | succ n => cases n with
      | zero => rfl
      | succ n => cases n <;> rfl
  · cases fuel with
    | zero => rfl
    | succ n => cases n with
      | zero => rfl
      | succ n => cases n <;> rfl

/-- C29 (fails on the code): loaded behind the row `/*`, an empty row, a row
of two blanks and the row `//` each get the flag 0 although they lie inside the
block comment and hold no `*/`, and the row `x` behind them is tagged plain;
behind the row `a` it is tagged as a block comment. -/
theorem C29_comment_lost_on_empty_row :
    tags (docOf 80 ["/*", "", "x"]) =
      [([HL_MLCOMMENT, HL_MLCOMMENT], 1), ([], 0), ([HL_NORMAL], 0)] ∧
    tags (docOf 80 ["/*", "  ", "x"]) =
      [([HL_MLCOMMENT, HL_MLCOMMENT], 1), ([HL_NORMAL, HL_NORMAL], 0), ([HL_NORMAL], 0)] ∧
    tags (docOf 80 ["/*", "//", "x"]) =
      [([HL_MLCOMMENT, HL_MLCOMMENT], 1), ([HL_COMMENT, HL_COMMENT], 0), ([HL_NORMAL], 0)] ∧
    tags (docOf 80 ["/*", "a", "x"]) =
      [([HL_MLCOMMENT, HL_MLCOMMENT], 1), ([HL_MLCOMMENT], 1), ([HL_MLCOMMENT], 1)] := by
  refine ⟨by decide, by decide, by decide, by decide⟩

/-- C30 (fails on the code): the row `//`, tab, `x` has the rendered form `//`,
five blanks, `x` of 8 bytes and the size 4; the token is found at offset 0 and
the `memset` of `HL_COMMENT` covers `size - i = 4` tags, so the tags at offsets
4 to 7 stay plain.  With the tab before the token the length `size - i` is
`3 - 7`. -/
theorem C30_line_comment_short_of_row_end :
    (docOf 80 ["//\tx"]).row.map erow.rendered = [bytes "//     x"] ∧
    (docOf 80 ["//\tx"]).row.map erow.size = [4] ∧
    tags (docOf 80 ["//\tx"]) =
      [([HL_COMMENT, HL_COMMENT, HL_COMMENT, HL_COMMENT,
         HL_NORMAL, HL_NORMAL, HL_NORMAL, HL_NORMAL], 0)] ∧
    (hlScan cSyntax (rowOf "\t//").render (rowOf "\t//").rsize (rowOf "\t//").size false).map
        (fun p => (p.1.i, p.1.oob, p.2)) = some (7, true, true) ∧
    subSizeT (rowOf "\t//").size 7 = 4294967292 := by
  refine ⟨by decide, by decide, by decide, by decide, by decide⟩

/-! ## Lemmas: the cursor column -/

/-- The cursor loop of `editorRefreshScreen` keeps `cx - 1` equal to the length
of what the content bytes before `j` render to. -/
theorem cursorColumnLoop_eq (chars : List Nat) (size : Nat) : ∀ (n j cx : Nat),
    j + n ≤ size → cx = (renderBytes chars j).length + 1 →
    cursorColumnLoop chars size n j cx = (renderBytes chars (j + n)).length + 1 := by
  intro n
  induction n with
  | zero => intro j cx _ h; exact h
  | succ n ih =>
    intro j cx hj hcx
    unfold cursorColumnLoop
    dsimp only
    rw [show j + (n + 1) = (j + 1) + n by omega]
    apply ih (j + 1) _ (by omega)
    by_cases ht : rd chars j = TAB
    · rw [if_pos ⟨by omega, ht⟩, renderBytes_tab chars j ht, hcx]
      simp only [List.length_append, List.length_replicate]
      omega
    · rw [if_neg (fun h => ht h.2), renderBytes_succ, if_neg ht, hcx]
      simp

/-! ## Lemmas: the first keyword is the longest -/

theorem length_kwText (kw : List Nat) :
    (kwText kw).length = if rd kw (kw.length - 1) == 124 then kw.length - 1 else kw.length := by
  unfold kwText
  split <;> simp

theorem rd_kwText (kw : List Nat) (k : Nat) (hk : k < (kwText kw).length) :
    rd (kwText kw) k = rd kw k := by
  unfold kwText at hk ⊢
  split
  · rename_i h
    rw [if_pos h] at hk
    rw [rd_take, if_pos (by simpa using hk)]
  · rfl

theorem kwMatches_eq (render : List Nat) (i : Nat) (kw : List Nat) :
    kwMatches render i kw (kwText kw).length =
      (readN render i (kwText kw).length == kwText kw) := by
  rw [Bool.eq_iff_iff]
  unfold kwMatches
  simp only [List.all_eq_true, List.mem_range, beq_iff_eq]
  constructor
  · intro h
    apply buf_ext (by simp)
    intro k hk
    simp only [length_readN] at hk
    rw [rd_readN, if_pos hk, h k hk, rd_kwText kw k hk]
  · intro h k hk
    have := congrArg (fun l => rd l k) h
    simp only [rd_readN, if_pos hk] at this
    rw [this, rd_kwText kw k hk]

/-- The keyword loop of `editorUpdateSyntax` reports the first text of the
list that stands at `i` and is followed by a separator. -/
theorem findKeyword_head (render : List Nat) (i : Nat) : ∀ (kws : List (List Nat)),
    (findKeyword render i kws).map Prod.fst =
      (((kws.map kwText).filter (kwFits render i)).map List.length).head? := by
  intro kws
  induction kws with
  | nil => rfl
  | cons kw rest ih =>
    unfold findKeyword
    dsimp only
    rw [← length_kwText kw, kwMatches_eq, List.map_cons, List.filter_cons]
    have hfit : kwFits render i (kwText kw) =
        (readN render i (kwText kw).length == kwText kw &&
          is_separator (rd render (i + (kwText kw).length))) := rfl
    rw [← hfit]
    by_cases hf : kwFits render i (kwText kw) = true
    · rw [if_pos hf, if_pos hf]
      rfl
    · rw [if_neg hf, if_neg hf]
      exact ih

/-- Two keyword texts without separator bytes that stand at the same offset,
each followed by a separator, have the same length. -/
theorem kwFits_length (render : List Nat) (i : Nat) (t1 t2 : List Nat)
    (h2 : ∀ c ∈ t2, is_separator c = false)
    (f1 : kwFits render i t1 = true) (f2 : kwFits render i t2 = true) :
    t2.length ≤ t1.length := by
  by_contra hlt
  unfold kwFits at f1 f2
  rw [Bool.and_eq_true] at f1 f2
  have hsep := f1.2
  have heq : readN render i t2.length = t2 := by simpa using f2.1
  have hk : t1.length < t2.length := by omega
  have hrd : rd t2 t1.length = rd render (i + t1.length) := by
    have := congrArg (fun l => rd l t1.length) heq
    simp only [rd_readN, if_pos hk] at this
    exact this.symm
  have hmem : rd t2 t1.length ∈ t2 := by
    rw [rd_eq_getElem hk]
    exact List.getElem_mem hk
  have := h2 _ hmem
  rw [hrd, hsep] at this
  cases this

theorem max?_of_all_eq : ∀ (l : List Nat), (∀ x ∈ l, ∀ y ∈ l, x = y) →
    l.max? = l.head? := by
  intro l
  induction l with
  | nil => intro _; rfl
  | cons a as ih =>
    intro h
    rw [List.max?_cons, List.head?_cons]
    cases as with
    | nil => rfl
    | cons b bs =>
      have hb : b = a := (h a (by simp) b (by simp)).symm
      have := ih (fun x hx y hy => h x (List.mem_cons_of_mem _ hx) y (List.mem_cons_of_mem _ hy))
      rw [this, List.head?_cons, hb]
      simp

/-- For a keyword list without separator bytes, the first entry that the
keyword loop accepts has the length of the longest text that stands at the
offset and is followed by a separator. -/
theorem findKeyword_longest (render : List Nat) (i : Nat) (kws : List (List Nat))
    (hc : kwsClean kws = true) :
    (findKeyword render i kws).map Prod.fst = longestKeyword render i kws := by
  rw [findKeyword_head]
  unfold longestKeyword
  symm
  apply max?_of_all_eq
  have hclean : ∀ t ∈ (kws.map kwText).filter (kwFits render i),
      (∀ c ∈ t, is_separator c = false) ∧ kwFits render i t = true := by
    intro t ht
    rw [List.mem_filter, List.mem_map] at ht
    obtain ⟨⟨kw, hkw, rfl⟩, hfit⟩ := ht
    refine ⟨fun c hcm => ?_, hfit⟩
    unfold kwsClean at hc
    rw [List.all_eq_true] at hc
    have := hc kw hkw
    rw [List.all_eq_true] at this
    simpa using this c hcm
  intro x hx y hy
  obtain ⟨t1, ht1, rfl⟩ := List.mem_map.mp hx
  obtain ⟨t2, ht2, rfl⟩ := List.mem_map.mp hy
  obtain ⟨c1, f1⟩ := hclean t1 ht1
  obtain ⟨c2, f2⟩ := hclean t2 ht2
  have a := kwFits_length render i t1 t2 c2 f1 f2
  have b := kwFits_length render i t2 t1 c1 f2 f1
  omega

/-! ## Properties of the keyword loop, of the cursor and of split and merge -/

/-- C31: for the keyword list of each registered descriptor (C, header,
BASIC, Lox), at every offset of every rendered buffer the length of the first
list entry that the keyword loop of `editorUpdateSyntax` accepts is the length
of the longest keyword text of the list (marker removed) that stands at that
offset and is followed by a separator, and the loop accepts none exactly when
there is none. -/
theorem C31_first_keyword_is_longest :
    (∀ render i, (findKeyword render i cSyntax.keywords).map Prod.fst =
      longestKeyword render i cSyntax.keywords) ∧
    (∀ render i, (findKeyword render i hSyntax.keywords).map Prod.fst =
      longestKeyword render i hSyntax.keywords) ∧
    (∀ render i, (findKeyword render i basSyntax.keywords).map Prod.fst =
      longestKeyword render i basSyntax.keywords) ∧
    (∀ render i, (findKeyword render i loxSyntax.keywords).map Prod.fst =
      longestKeyword render i loxSyntax.keywords) :=
  ⟨fun render i => findKeyword_longest render i _ (by decide),
   fun render i => findKeyword_longest render i _ (by decide),
   fun render i => findKeyword_longest render i _ (by decide),
   fun render i => findKeyword_longest render i _ (by decide)⟩

/-- C32 (fails on the code): from a state inside the window, with the cursor
at column 0 of the top row of the window and `rowoff = 1`, `editorMoveCursor`
for the left arrow gives `cy = -1`; and `editorDelChar` at column 0 of a row
whose upper neighbour has 7 bytes, in a window of 4 columns, gives `cx = 9` and
`coloff = -2`. -/
theorem C32_cursor_leaves_window :
    inWindow { docOf 80 ["ab", "cd"] with rowoff := 1 } ∧
    (editorMoveCursor CLI_KEY_LEFT { docOf 80 ["ab", "cd"] with rowoff := 1 }).map
        (fun E => (E.cx, E.cy, E.coloff, E.rowoff, decide (inWindow E))) =
      some (2, -1, 0, 1, false) ∧
    inWindow { docOf 4 ["abcdefg", "x"] with cy := 1 } ∧
    (editorDelChar 4 { docOf 4 ["abcdefg", "x"] with cy := 1 }).map
        (fun E => (E.cx, E.cy, E.coloff, E.screencols, decide (inWindow E))) =
      some (9, 0, -2, 4, false) := by
  refine ⟨by decide, by decide, by decide, by decide⟩

/-- C33 (fails on the code): in a window of 4 columns `editorMoveEnd` on the
row `abcdefg` of length 7 gives `coloff = 0` and `cx = 4`, file column 4 and
not 7, and on the row `abcd` of length 4 it gives `cx = 4`, which is not below
`screencols`; on the row `abc` it gives file column 3. -/
theorem C33_move_end_long_row :
    (editorMoveEnd (docOf 4 ["abcdefg"])).map (fun E => (E.coloff, E.cx, E.screencols)) =
      some (0, 4, 4) ∧
    (editorMoveEnd (docOf 4 ["abcd"])).map (fun E => (E.coloff, E.cx, E.screencols)) =
      some (0, 4, 4) ∧
    (editorMoveEnd (docOf 4 ["abc"])).map (fun E => (E.coloff, E.cx, E.screencols)) =
      some (0, 3, 4) ∧
    Int.tdiv 4 7 * 4 = 0 ∧ Int.tmod 4 7 = 4 := by
  refine ⟨by decide, by decide, by decide, by decide, by decide⟩

/-- C34: with `coloff = 0` and the cursor on an existing row at column
`cx ≤ size`, the column that `editorRefreshScreen` passes to `sys_txt_set_xy`
is the length of what the first `cx` content bytes of the row render to, and
that is a prefix of the rendered form which `editorUpdateRow` gives the row. -/
theorem C34_cursor_column_agrees (E : editorConfig) (r c : Nat) (row : erow)
    (hr : E.rowoff + E.cy = (r : Int)) (hlt : r < E.numrows) (hrow : E.row[r]? = some row)
    (hco : E.coloff = 0) (hcx : E.cx = (c : Int)) (hc : c ≤ row.size) :
    refreshCursorColumn E = some (renderBytes row.chars c).length ∧
    ∃ tail, (rerender row).rendered = renderBytes row.chars c ++ tail := by
  constructor
  · unfold refreshCursorColumn rowUnderCursor
    rw [hr, if_neg (by omega), if_neg (by omega), Int.toNat_ofNat, hrow]
    dsimp only
    rw [hcx, hco]
    by_cases h0 : c = 0
    · subst h0
      rw [if_pos (by omega)]
      rfl
    · rw [if_neg (by omega), if_neg (by omega), Int.toNat_ofNat]
      have := cursorColumnLoop_eq row.chars row.size c 0 1 (by omega) rfl
      rw [Nat.zero_add] at this
      rw [show (0 : Int).toNat = 0 from rfl, this]
      rfl
  · obtain ⟨tail, ht⟩ := renderBytes_prefix row.chars c (row.size - c)
    rw [show c + (row.size - c) = row.size by omega] at ht
    exact ⟨tail, by rw [rerender_rendered, ht]⟩

theorem C34_witness :
    refreshCursorColumn { docOf 80 ["a\tb\tc"] with cx := 4 } = some 15 := by
  have h := (C34_cursor_column_agrees { docOf 80 ["a\tb\tc"] with cx := 4 } 0 4
    ((docOf 80 ["a\tb\tc"]).row.getD 0 (newRow 0 [] 0)) (by decide) (by decide) (by decide)
    (by decide) (by decide) (by decide)).1
  exact h.trans (by decide)

/-- C35 (fails on the code): with the cursor at column 3 of the row tab,
`//abcdefgh` (under the C descriptor) `editorInsertNewline` inserts the row
`abcdefgh`, cuts row 0 down to tab, `//` (size 3, `//` at rendered offset 7)
and the highlighting pass on it leaves the highlight array: the split has no
result, whatever the fuel, and there is nothing for `editorDelChar` to merge.
At column 7 the split and the merge return, and the rows and the bytes of
`editorRowsToString` are those before. -/
theorem C35_split_overruns_highlight_array :
    (docOf 80 ["\t//abcdefgh"]).row.map erow.content = [bytes "\t//abcdefgh"] ∧
    (∀ fuel, editorInsertNewline fuel { docOf 80 ["\t//abcdefgh"] with cx := 3 } = none) ∧
    (∀ fuel, (editorInsertNewline fuel { docOf 80 ["\t//abcdefgh"] with cx := 3 }).bind
      (editorDelChar fuel) = none) ∧
    (hlScan cSyntax (rowOf "\t//").render (rowOf "\t//").rsize (rowOf "\t//").size false).map
        (fun p => (p.1.i, p.1.oob)) = some (7, true) ∧
    (editorInsertNewline 3 { docOf 80 ["\t//abcdefgh"] with cx := 7 }).map
        (fun E => E.row.map erow.content) = some [bytes "\t//abcd", bytes "efgh"] ∧
    ((editorInsertNewline 3 { docOf 80 ["\t//abcdefgh"] with cx := 7 }).bind
        (editorDelChar 3)).map
          (fun E => (E.numrows, E.row.map erow.content, editorRowsToString E)) =
      some (1, [bytes "\t//abcdefgh"], editorRowsToString (docOf 80 ["\t//abcdefgh"])) := by
  refine ⟨by decide, fun fuel => ?_, fun fuel => ?_, by decide, by decide, by decide⟩
  · cases fuel <;> rfl
  · cases fuel <;> rfl

end FoenixEdit
